import Mathlib

/-!
# Cartridge SRAM of mupen64plus-core (`src/device/cart/sram.c`)

A shallow embedding of `format_sram`, `read_sram`, `write_sram`,
`sram_dma_read` and `sram_dma_write`, and the properties of the
specification that are settled on it. The argument handling and the size check
of the exporter tool (`tools/soh_export/soh_export.c`) follow in `SohExport`.

Conventions of the embedding.

* A buffer (`uint8_t*`) is a `List Nat` of bytes; an index is in bounds when it
  is below the length of the list.
* An access outside a buffer is undefined in C.  The embedding records it by
  replacing the contents of the written buffer by `none` (contents unknown) and
  carries on, so that the effects which do not depend on the contents, the
  calls of `save` and the returned value, are those of the source text.
* `uint32_t` arguments are natural numbers.  `size_t` is 64 bits wide, so the
  sums `cart_addr+i` and `dram_addr+i` of a 32-bit value and the loop counter
  never wrap.
* The host byte order (`M64P_BIG_ENDIAN`) is a parameter: it fixes the byte
  lane constant `S8` and the layout of a `uint32_t` in memory.
* The indices a DMA loop uses are listed by `sram_dma_read_accesses` and
  `sram_dma_write_accesses`; a call keeps its buffers exactly when all of them
  are in bounds (`sram_dma_read_some_iff`, `sram_dma_write_some_iff`).
* The block of `write_sram` under `ENABLE_SOH_EXPORT`, which starts an external
  process, touches neither the buffer nor the backend and is left out.
-/

namespace CartSram

/-! ## Constants -/

/-- Modelled from the spec: the capacity of the backing buffer, `SRAM_SIZE` of
`sram.h`, which is not among the sources. The scenarios of the specification
use a capacity of 32768 bytes; `tools/soh_export/soh_export.c` (line 17)
defines the same value under the same name. -/
def SRAM_SIZE : Nat := 0x8000

/-- Mask of the address window, `sram.c` line 32. -/
def SRAM_ADDR_MASK : Nat := 0x0000ffff

/-- Byte order of the host, that is whether `M64P_BIG_ENDIAN` is defined. -/
inductive Endian where
  | little
  | big
  deriving DecidableEq, Repr

/-- Modelled from the spec: the constant `K` of the byte-lane permutation
`targetIndex(i) = i XOR K`, `S8` of `device/memory/memory.h`, which is not among
the sources: `0` on a big-endian host and `3` otherwise. -/
def S8 : Endian → Nat
  | Endian.big => 0
  | Endian.little => 3

/-! ## Buffers -/

/-- Store of one byte, `buf[i] = v`; `none` when `i` is outside the buffer. -/
def store8 (buf : List Nat) (i v : Nat) : Option (List Nat) :=
  if i < buf.length then some (buf.set i v) else none

/-- Load of a word, `*(uint32_t*)(buf + a)`: the four bytes at `a .. a+3` in
host order; `none` when one of them is outside the buffer. -/
def load32 (e : Endian) (buf : List Nat) (a : Nat) : Option Nat :=
  match buf[a]?, buf[a + 1]?, buf[a + 2]?, buf[a + 3]? with
  | some b0, some b1, some b2, some b3 =>
    match e with
    | Endian.little => some (b0 + 256 * b1 + 65536 * b2 + 16777216 * b3)
    | Endian.big => some (16777216 * b0 + 65536 * b1 + 256 * b2 + b3)
  | _, _, _, _ => none

/-- Store of a word, `*(uint32_t*)(buf + a) = w`: the four bytes of `w` in host
order at `a .. a+3`; `none` when one of them is outside the buffer. -/
def store32 (e : Endian) (buf : List Nat) (a w : Nat) : Option (List Nat) :=
  if a + 3 < buf.length then
    match e with
    | Endian.little =>
      some ((((buf.set a (w % 256)).set (a + 1) (w / 256 % 256)).set (a + 2)
        (w / 65536 % 256)).set (a + 3) (w / 16777216 % 256))
    | Endian.big =>
      some ((((buf.set a (w / 16777216 % 256)).set (a + 1) (w / 65536 % 256)).set (a + 2)
        (w / 256 % 256)).set (a + 3) (w % 256))
  else none

/-- Modelled from the spec: `masked_write` of `device/memory/memory.h`, which is
not among the sources. "Perform an in-place masked merge: only bit positions set
in `mask` are updated in the target word, all others retain their prior value."
The first argument is the word `*dst` before the call, the result is the word
stored to `*dst`; the complement of a 32-bit `mask` is `0xFFFFFFFF ^^^ mask`. -/
def masked_write (dst value mask : Nat) : Nat :=
  (dst &&& (0xFFFFFFFF ^^^ mask)) ||| (value &&& mask)

/-! ## The device -/

/-- What `struct sram` gives access to: the buffer `istorage->data(storage)`
(`none` once an access has left it), the calls `istorage->save(storage, start,
size)` made so far, oldest first, and `rdram->dram_size`. -/
structure Sram where
  mem : Option (List Nat)
  saved : List (Nat × Nat)
  dram_size : Nat

/-- Function `format_sram`, `memset(mem, 0xff, SRAM_SIZE)`: the first `SRAM_SIZE`
bytes become `0xff`; `none` when the buffer is shorter than that. -/
def format_sram (mem : List Nat) : Option (List Nat) :=
  if SRAM_SIZE ≤ mem.length then
    some (List.replicate SRAM_SIZE 0xff ++ mem.drop SRAM_SIZE)
  else none

/-- Function `read_sram`: the word stored in `*value`. -/
def read_sram (e : Endian) (sram : Sram) (address : Nat) : Option Nat :=
  let address := address &&& SRAM_ADDR_MASK
  match sram.mem with
  | none => none
  | some mem => load32 e mem address

/-- Function `write_sram`: masked write of the word at the masked address, then
`save(storage, address, sizeof(value))`. -/
def write_sram (e : Endian) (sram : Sram) (address value mask : Nat) : Sram :=
  let address := address &&& SRAM_ADDR_MASK
  let mem := match sram.mem with
    | none => none
    | some mem =>
      match load32 e mem address with
      | none => none
      | some old => store32 e mem address (masked_write old value mask)
  { sram with mem := mem, saved := sram.saved ++ [(address, 4)] }

/-- Loop of `sram_dma_read`, entered with counter `i` and buffer `mem`:
`for (; i < length && (cart_addr+i) < SRAM_SIZE; ++i)
   mem[(cart_addr+i)^S8] = dram[(dram_addr+i)^S8];` -/
def sram_dma_read_loop (e : Endian) (dram : List Nat) (dram_addr cart_addr length : Nat)
    (i : Nat) (mem : List Nat) : Option (List Nat) :=
  if _h : i < length ∧ cart_addr + i < SRAM_SIZE then
    match dram[(dram_addr + i) ^^^ S8 e]? with
    | none => none
    | some b =>
      match store8 mem ((cart_addr + i) ^^^ S8 e) b with
      | none => none
      | some mem' => sram_dma_read_loop e dram dram_addr cart_addr length (i + 1) mem'
  else some mem
termination_by length - i
decreasing_by omega

/-- Function `sram_dma_read` (main memory to SRAM): the device afterwards and the
returned value. -/
def sram_dma_read (e : Endian) (sram : Sram) (dram : List Nat)
    (dram_addr cart_addr length : Nat) : Sram × Nat :=
  let cart_addr := cart_addr &&& SRAM_ADDR_MASK
  let mem := match sram.mem with
    | none => none
    | some mem => sram_dma_read_loop e dram dram_addr cart_addr length 0 mem
  ({ sram with mem := mem, saved := sram.saved ++ [(cart_addr, length)] }, 0x1000)

/-- Loop of `sram_dma_write`, entered with counter `i` and main memory `dram`:
`for (; i < length && (dram_addr+i) < sram->rdram->dram_size; ++i)
   dram[(dram_addr+i)^S8] = mem[(cart_addr+i)^S8];` -/
def sram_dma_write_loop (e : Endian) (mem : List Nat) (dram_size dram_addr cart_addr length : Nat)
    (i : Nat) (dram : List Nat) : Option (List Nat) :=
  if _h : i < length ∧ dram_addr + i < dram_size then
    match mem[(cart_addr + i) ^^^ S8 e]? with
    | none => none
    | some b =>
      match store8 dram ((dram_addr + i) ^^^ S8 e) b with
      | none => none
      | some dram' => sram_dma_write_loop e mem dram_size dram_addr cart_addr length (i + 1) dram'
  else some dram
termination_by length - i
decreasing_by omega

/-- Function `sram_dma_write` (SRAM to main memory): the device afterwards, the
main memory afterwards (`none` once an access has left a buffer) and the
returned value. -/
def sram_dma_write (e : Endian) (sram : Sram) (dram : List Nat)
    (dram_addr cart_addr length : Nat) : Sram × Option (List Nat) × Nat :=
  let cart_addr := cart_addr &&& SRAM_ADDR_MASK
  let dram' := match sram.mem with
    | none => none
    | some mem => sram_dma_write_loop e mem sram.dram_size dram_addr cart_addr length 0 dram
  (sram, dram', 0x1000)

/-- Copy of `k` bytes with lane swap, counter starting at `i`:
`dst[(t+j)^K] = src[(s+j)^K]` for `j = i, .., i+k-1` in this order. Both DMA
loops are instances of it (`sram_dma_read_loop_eq`, `sram_dma_write_loop_eq`). -/
def copy_lanes (K : Nat) (src : List Nat) (s t : Nat) : Nat → Nat → List Nat → Option (List Nat)
  | 0, _, dst => some dst
  | k + 1, i, dst =>
    match src[(s + i) ^^^ K]? with
    | none => none
    | some b =>
      match store8 dst ((t + i) ^^^ K) b with
      | none => none
      | some dst' => copy_lanes K src s t k (i + 1) dst'

/-- Device formatted from a buffer `m`, no save issued yet. -/
def formatted (m : List Nat) (dram_size : Nat) : Sram :=
  { mem := format_sram m, saved := [], dram_size := dram_size }

/-- A device whose 32768 bytes all hold `0xff`, no save issued yet. -/
def erased : Sram :=
  { mem := some (List.replicate SRAM_SIZE 0xff), saved := [], dram_size := 0x800000 }

/-- A main memory of 16 bytes holding `1, 2, .., 16`. -/
def dram16 : List Nat := [1, 2, 3, 4, 5, 6, 7, 8, 9, 10, 11, 12, 13, 14, 15, 16]

/-- The erased device next to a main memory of 16 bytes. -/
def erased16 : Sram :=
  { mem := some (List.replicate SRAM_SIZE 0xff), saved := [], dram_size := 16 }

/-- Indices used by the loop of `sram_dma_read` from counter `i` on, one pair per
iteration in the order of execution: the index read in `dram` and the index
written in `mem`. Guard and index expressions are those of the loop. -/
def sram_dma_read_accesses (e : Endian) (dram_addr cart_addr length : Nat) (i : Nat) :
    List (Nat × Nat) :=
  if _h : i < length ∧ cart_addr + i < SRAM_SIZE then
    ((dram_addr + i) ^^^ S8 e, (cart_addr + i) ^^^ S8 e) ::
      sram_dma_read_accesses e dram_addr cart_addr length (i + 1)
  else []
termination_by length - i
decreasing_by omega

/-- Indices used by the loop of `sram_dma_write` from counter `i` on, one pair per
iteration in the order of execution: the index read in `mem` and the index
written in `dram`. Guard and index expressions are those of the loop. -/
def sram_dma_write_accesses (e : Endian) (dram_size dram_addr cart_addr length : Nat) (i : Nat) :
    List (Nat × Nat) :=
  if _h : i < length ∧ dram_addr + i < dram_size then
    ((cart_addr + i) ^^^ S8 e, (dram_addr + i) ^^^ S8 e) ::
      sram_dma_write_accesses e dram_size dram_addr cart_addr length (i + 1)
  else []
termination_by length - i
decreasing_by omega

/-- Indices used by `copy_lanes`: the pairs `((s+j)^K, (t+j)^K)` for
`j = i, .., i+k-1`. -/
def lane_accesses (K s t : Nat) : Nat → Nat → List (Nat × Nat)
  | 0, _ => []
  | k + 1, i => ((s + i) ^^^ K, (t + i) ^^^ K) :: lane_accesses K s t k (i + 1)

/-- A main memory of 5 bytes, a size that is not a multiple of 4. -/
def dram5 : List Nat := [1, 2, 3, 4, 5]

/-- The erased device next to a main memory of 5 bytes. -/
def erased5 : Sram :=
  { mem := some (List.replicate SRAM_SIZE 0xff), saved := [], dram_size := 5 }

end CartSram

/-! # The exporter tool (`tools/soh_export/soh_export.c`) -/

namespace SohExport

/-- Size of the save image, `soh_export.c` line 17. -/
def SRAM_SIZE : Nat := 0x8000

/-- Local variables of `main` that the argument loop sets; a `NULL` path is
`none`. -/
structure Options where
  sra_path : Option String
  rom_path : Option String
  outdir : String
  slot : Int
  force : Bool

/-- Values of the locals before the argument loop. -/
def Options.start : Options :=
  { sra_path := none, rom_path := none, outdir := "SoH", slot := 0, force := false }

/-- How the argument loop ends: it reaches the end of `argv`, or it meets `--help`
and `main` returns 0 at once. -/
inductive Parsed where
  | help
  | done (o : Options)

/-- Argument loop of `main` on the arguments from `argv[i]` on. An option that
takes a value consumes the next argument when there is one (`i + 1 < argc`);
without one it matches no branch and is skipped. `atoi` is the C library
function. -/
def parse_args (atoi : String → Int) : List String → Options → Parsed
  | [], o => Parsed.done o
  | [a], o =>
    if a = "--force" then Parsed.done { o with force := true }
    else if a = "--help" then Parsed.help
    else Parsed.done o
  | a :: v :: rest, o =>
    if a = "--sra" then parse_args atoi rest { o with sra_path := some v }
    else if a = "--rom" then parse_args atoi rest { o with rom_path := some v }
    else if a = "--outdir" then parse_args atoi rest { o with outdir := v }
    else if a = "--slot" then parse_args atoi rest { o with slot := atoi v }
    else if a = "--force" then parse_args atoi (v :: rest) { o with force := true }
    else if a = "--help" then Parsed.help
    else parse_args atoi (v :: rest) o

/-- What is observed of a run of `main`: the value returned and the calls of
`export_slot` as `(offset, size, outdir, slot)`. -/
structure Outcome where
  status : Int
  exports : List (Nat × Nat × String × Int)

/-- Function `main`. `fopen` gives the contents of the file at a path, `none` when
it cannot be opened; `fread` of at most `SRAM_SIZE` bytes returns the smaller of
the file length and `SRAM_SIZE`. -/
def main (atoi : String → Int) (fopen : String → Option (List Nat)) (argv : List String) :
    Outcome :=
  match parse_args atoi (argv.drop 1) Options.start with
  | Parsed.help => { status := 0, exports := [] }
  | Parsed.done o =>
    match o.sra_path, o.rom_path with
    | some sra_path, some _ =>
      match fopen sra_path with
      | none => { status := 1, exports := [] }
      | some file =>
        let n := min file.length SRAM_SIZE
        if n < SRAM_SIZE ∧ o.force = false then { status := 1, exports := [] }
        else { status := 0, exports := [(0x20, 0x1450, o.outdir, o.slot)] }
    | _, _ => { status := 1, exports := [] }

/-- The argument vector `soh_export --sra save.sra --rom rom.z64 --help`. -/
def argv_help : List String :=
  ["soh_export", "--sra", "save.sra", "--rom", "rom.z64", "--help"]

/-- The argument vector `soh_export --sra save.sra --rom rom.z64`. -/
def argv_plain : List String :=
  ["soh_export", "--sra", "save.sra", "--rom", "rom.z64"]

/-- One element of a command line read as the usage line of the tool describes
it, `--sra <file> --rom <file> [--outdir SoH] [--slot N] [--force]`: an option
with the value that follows it, or an argument that stands alone. -/
inductive Item where
  | opt (name value : String)
  | word (w : String)
  deriving DecidableEq

/-- The options that the usage line shows with a value. -/
def takes_value (a : String) : Bool :=
  a = "--sra" || a = "--rom" || a = "--outdir" || a = "--slot"

/-- The command line read left to right: an option that takes a value and is
followed by another argument forms one item with it; every other argument is an
item of its own. An argument in value position is thus not read as an option. -/
def items : List String → List Item
  | [] => []
  | [a] => [Item.word a]
  | a :: v :: rest =>
    if takes_value a then Item.opt a v :: items rest
    else Item.word a :: items (v :: rest)

/-- The value the command line supplies for the option `name`, the last one when
the option is repeated; `none` when it supplies none. -/
def value_of (name : String) : List Item → Option String
  | [] => none
  | Item.opt n v :: rest => (value_of name rest).or (if n = name then some v else none)
  | Item.word _ :: rest => value_of name rest

/-- The value that the arguments after `argv[0]` supply for the option `name`. -/
def supplied (name : String) (argv : List String) : Option String :=
  value_of name (items (argv.drop 1))

/-- The flag `flag` is given: it is an argument after `argv[0]` outside value
position. -/
def given (flag : String) (argv : List String) : Prop :=
  Item.word flag ∈ items (argv.drop 1)

/-- The argument vector `soh_export --sra save.sra --rom rom.z64 --force`. -/
def argv_force : List String :=
  ["soh_export", "--sra", "save.sra", "--rom", "rom.z64", "--force"]

/-- A file system in which every path opens a file of `n` zero bytes. -/
def zeros (n : Nat) : String → Option (List Nat) :=
  fun _ => some (List.replicate n 0)

end SohExport

namespace CartSram

/-! ## Words in a buffer -/

theorem load32_eq_none (e : Endian) (buf : List Nat) (a : Nat) (h : buf.length ≤ a + 3) :
    load32 e buf a = none := by
  have h3 : buf[a + 3]? = none := List.getElem?_eq_none h
  unfold load32
  rw [h3]
  split
  · simp_all
  · rfl

theorem load32_isSome (e : Endian) (buf : List Nat) (a : Nat) (h : a + 3 < buf.length) :
    ∃ w, load32 e buf a = some w := by
  have h0 : buf[a]? = some buf[a] := List.getElem?_eq_getElem (by omega)
  have h1 : buf[a + 1]? = some buf[a + 1] := List.getElem?_eq_getElem (by omega)
  have h2 : buf[a + 2]? = some buf[a + 2] := List.getElem?_eq_getElem (by omega)
  have h3 : buf[a + 3]? = some buf[a + 3] := List.getElem?_eq_getElem h
  unfold load32
  rw [h0, h1, h2, h3]
  cases e <;> exact ⟨_, rfl⟩

theorem store32_length (e : Endian) (buf buf' : List Nat) (a w : Nat)
    (h : store32 e buf a w = some buf') : buf'.length = buf.length := by
  unfold store32 at h
  split at h
  · cases e <;> simp at h <;> subst h <;> simp
  · simp at h

theorem load32_store32 (e : Endian) (buf : List Nat) (a w : Nat) (h : a + 3 < buf.length) :
    ∃ buf', store32 e buf a w = some buf' ∧ load32 e buf' a = some (w % 4294967296) := by
  cases e
  · have hs : store32 Endian.little buf a w = some ((((buf.set a (w % 256)).set (a + 1)
        (w / 256 % 256)).set (a + 2) (w / 65536 % 256)).set (a + 3) (w / 16777216 % 256)) := by
      simp [store32, h]
    refine ⟨_, hs, ?_⟩
    have e0 : ((((buf.set a (w % 256)).set (a + 1) (w / 256 % 256)).set (a + 2)
        (w / 65536 % 256)).set (a + 3) (w / 16777216 % 256))[a]? = some (w % 256) := by
      simp [List.getElem?_set]; omega
    have e1 : ((((buf.set a (w % 256)).set (a + 1) (w / 256 % 256)).set (a + 2)
        (w / 65536 % 256)).set (a + 3) (w / 16777216 % 256))[a + 1]? = some (w / 256 % 256) := by
      simp [List.getElem?_set]; omega
    have e2 : ((((buf.set a (w % 256)).set (a + 1) (w / 256 % 256)).set (a + 2)
        (w / 65536 % 256)).set (a + 3) (w / 16777216 % 256))[a + 2]? = some (w / 65536 % 256) := by
      simp [List.getElem?_set]; omega
    have e3 : ((((buf.set a (w % 256)).set (a + 1) (w / 256 % 256)).set (a + 2)
        (w / 65536 % 256)).set (a + 3) (w / 16777216 % 256))[a + 3]? =
        some (w / 16777216 % 256) := by
      simp [List.getElem?_set]; omega
    unfold load32
    rw [e0, e1, e2, e3]
    simp only [Option.some.injEq]
    omega
  · have hs : store32 Endian.big buf a w = some ((((buf.set a (w / 16777216 % 256)).set (a + 1)
        (w / 65536 % 256)).set (a + 2) (w / 256 % 256)).set (a + 3) (w % 256)) := by
      simp [store32, h]
    refine ⟨_, hs, ?_⟩
    have e0 : ((((buf.set a (w / 16777216 % 256)).set (a + 1) (w / 65536 % 256)).set (a + 2)
        (w / 256 % 256)).set (a + 3) (w % 256))[a]? = some (w / 16777216 % 256) := by
      simp [List.getElem?_set]; omega
    have e1 : ((((buf.set a (w / 16777216 % 256)).set (a + 1) (w / 65536 % 256)).set (a + 2)
        (w / 256 % 256)).set (a + 3) (w % 256))[a + 1]? = some (w / 65536 % 256) := by
      simp [List.getElem?_set]; omega
    have e2 : ((((buf.set a (w / 16777216 % 256)).set (a + 1) (w / 65536 % 256)).set (a + 2)
        (w / 256 % 256)).set (a + 3) (w % 256))[a + 2]? = some (w / 256 % 256) := by
      simp [List.getElem?_set]; omega
    have e3 : ((((buf.set a (w / 16777216 % 256)).set (a + 1) (w / 65536 % 256)).set (a + 2)
        (w / 256 % 256)).set (a + 3) (w % 256))[a + 3]? = some (w % 256) := by
      simp [List.getElem?_set]; omega
    unfold load32
    rw [e0, e1, e2, e3]
    simp only [Option.some.injEq]
    omega

theorem load32_bound (e : Endian) (buf : List Nat) (a w : Nat) (h : load32 e buf a = some w) :
    a + 3 < buf.length := by
  by_contra hn
  rw [load32_eq_none e buf a (by omega)] at h
  cases h

/-! ## The masked merge -/

theorem masked_write_lt (dst value mask : Nat) (hM : mask < 2 ^ 32) :
    masked_write dst value mask < 2 ^ 32 := by
  unfold masked_write
  apply Nat.or_lt_two_pow
  · apply Nat.and_lt_two_pow
    exact Nat.xor_lt_two_pow (by norm_num) hM
  · exact Nat.and_lt_two_pow _ hM

theorem masked_write_testBit (dst value mask k : Nat) (hk : k < 32) :
    (masked_write dst value mask).testBit k =
      if mask.testBit k then value.testBit k else dst.testBit k := by
  have hones : (0xFFFFFFFF : Nat).testBit k = true := by
    have := Nat.testBit_two_pow_sub_one 32 k
    simpa [hk] using this
  unfold masked_write
  rw [Nat.testBit_or, Nat.testBit_and, Nat.testBit_and, Nat.testBit_xor, hones]
  cases mask.testBit k <;> simp

theorem masked_write_full (dst value : Nat) (hV : value < 2 ^ 32) :
    masked_write dst value 0xFFFFFFFF = value := by
  apply Nat.eq_of_testBit_eq
  intro k
  by_cases hk : k < 32
  · rw [masked_write_testBit dst value 0xFFFFFFFF k hk]
    have := Nat.testBit_two_pow_sub_one 32 k
    simp [hk] at this
    simp [this]
  · have h1 : masked_write dst value 0xFFFFFFFF < 2 ^ k :=
      lt_of_lt_of_le (masked_write_lt dst value 0xFFFFFFFF (by norm_num))
        (Nat.pow_le_pow_right (by norm_num) (by omega))
    have h2 : value < 2 ^ k :=
      lt_of_lt_of_le hV (Nat.pow_le_pow_right (by norm_num) (by omega))
    rw [Nat.testBit_lt_two_pow h1, Nat.testBit_lt_two_pow h2]

/-! ## The register interface -/

theorem read_sram_bound (e : Endian) (sram : Sram) (A w : Nat) (h : read_sram e sram A = some w) :
    ∃ mem, sram.mem = some mem ∧ (A &&& SRAM_ADDR_MASK) + 3 < mem.length ∧
      load32 e mem (A &&& SRAM_ADDR_MASK) = some w := by
  unfold read_sram at h
  cases hm : sram.mem with
  | none => simp [hm] at h
  | some mem =>
    simp only [hm] at h
    exact ⟨mem, rfl, load32_bound e mem _ w h, h⟩

theorem read_write_sram (e : Endian) (sram : Sram) (A V M old : Nat)
    (hold : read_sram e sram A = some old) (hM : M < 2 ^ 32) :
    read_sram e (write_sram e sram A V M) A = some (masked_write old V M) := by
  obtain ⟨mem, hm, hb, hl⟩ := read_sram_bound e sram A old hold
  obtain ⟨buf', hs, hr⟩ := load32_store32 e mem (A &&& SRAM_ADDR_MASK) (masked_write old V M) hb
  have hlt := masked_write_lt old V M hM
  have hmod : masked_write old V M % 4294967296 = masked_write old V M :=
    Nat.mod_eq_of_lt (by simpa using hlt)
  simp only [read_sram, write_sram, hm, hl, hs, hr, hmod]

theorem mask_idem (A : Nat) : (A &&& 0xFFFF) &&& SRAM_ADDR_MASK = A &&& SRAM_ADDR_MASK := by
  unfold SRAM_ADDR_MASK
  rw [Nat.and_assoc, Nat.and_self]

/-! ## The lane-swapping copy -/

theorem copy_lanes_spec (K : Nat) (src : List Nat) (s t : Nat) (k : Nat) :
    ∀ (i : Nat) (dst : List Nat),
      (∀ j, i ≤ j → j < i + k → (s + j) ^^^ K < src.length) →
      (∀ j, i ≤ j → j < i + k → (t + j) ^^^ K < dst.length) →
      ∃ dst', copy_lanes K src s t k i dst = some dst' ∧ dst'.length = dst.length ∧
        (∀ j, i ≤ j → j < i + k → dst'[(t + j) ^^^ K]? = src[(s + j) ^^^ K]?) ∧
        (∀ x, (∀ j, i ≤ j → j < i + k → x ≠ (t + j) ^^^ K) → dst'[x]? = dst[x]?) := by
  induction k with
  | zero =>
    intro i dst _ _
    refine ⟨dst, rfl, rfl, ?_, ?_⟩
    · intro j h1 h2
      omega
    · intro x _
      rfl
  | succ k ih =>
    intro i dst hsrc hdst
    have hs0 : (s + i) ^^^ K < src.length := hsrc i (le_refl i) (by omega)
    have hd0 : (t + i) ^^^ K < dst.length := hdst i (le_refl i) (by omega)
    have hget : src[(s + i) ^^^ K]? = some src[(s + i) ^^^ K] := List.getElem?_eq_getElem hs0
    have hst : store8 dst ((t + i) ^^^ K) src[(s + i) ^^^ K] =
        some (dst.set ((t + i) ^^^ K) src[(s + i) ^^^ K]) := by
      simp [store8, hd0]
    obtain ⟨dst', hc, hlen, hcopy, hframe⟩ :=
      ih (i + 1) (dst.set ((t + i) ^^^ K) src[(s + i) ^^^ K])
        (fun j h1 h2 => hsrc j (by omega) (by omega))
        (fun j h1 h2 => by
          rw [List.length_set]
          exact hdst j (by omega) (by omega))
    refine ⟨dst', ?_, ?_, ?_, ?_⟩
    · simp only [copy_lanes, hget, hst, hc]
    · rw [hlen, List.length_set]
    · intro j h1 h2
      by_cases hj : j = i
      · subst hj
        rw [hframe ((t + j) ^^^ K) (fun j' h1' _ heq => by
          have := Nat.xor_left_inj.mp heq
          omega)]
        rw [List.getElem?_set_self hd0, hget]
      · exact hcopy j (by omega) (by omega)
    · intro x hx
      rw [hframe x (fun j h1 h2 => hx j (by omega) (by omega))]
      exact List.getElem?_set_ne (Ne.symm (hx i (le_refl i) (by omega)))

theorem sram_dma_read_loop_eq (e : Endian) (dram : List Nat) (dram_addr cart_addr length : Nat)
    (n : Nat) :
    ∀ (i : Nat) (mem : List Nat), min length (SRAM_SIZE - cart_addr) - i = n →
      sram_dma_read_loop e dram dram_addr cart_addr length i mem =
        copy_lanes (S8 e) dram dram_addr cart_addr n i mem := by
  induction n with
  | zero =>
    intro i mem h
    rw [sram_dma_read_loop]
    have hc : ¬ (i < length ∧ cart_addr + i < SRAM_SIZE) := by omega
    simp only [hc, dite_false, copy_lanes]
  | succ n ih =>
    intro i mem h
    rw [sram_dma_read_loop]
    have hc : i < length ∧ cart_addr + i < SRAM_SIZE := by omega
    simp only [hc, and_self, dite_true, copy_lanes]
    cases dram[(dram_addr + i) ^^^ S8 e]? with
    | none => rfl
    | some b =>
      dsimp only
      cases store8 mem ((cart_addr + i) ^^^ S8 e) b with
      | none => rfl
      | some mem' => exact ih (i + 1) mem' (by omega)

theorem sram_dma_write_loop_eq (e : Endian) (mem : List Nat)
    (dram_size dram_addr cart_addr length : Nat) (n : Nat) :
    ∀ (i : Nat) (dram : List Nat), min length (dram_size - dram_addr) - i = n →
      sram_dma_write_loop e mem dram_size dram_addr cart_addr length i dram =
        copy_lanes (S8 e) mem cart_addr dram_addr n i dram := by
  induction n with
  | zero =>
    intro i dram h
    rw [sram_dma_write_loop]
    have hc : ¬ (i < length ∧ dram_addr + i < dram_size) := by omega
    simp only [hc, dite_false, copy_lanes]
  | succ n ih =>
    intro i dram h
    rw [sram_dma_write_loop]
    have hc : i < length ∧ dram_addr + i < dram_size := by omega
    simp only [hc, and_self, dite_true, copy_lanes]
    cases mem[(cart_addr + i) ^^^ S8 e]? with
    | none => rfl
    | some b =>
      dsimp only
      cases store8 dram ((dram_addr + i) ^^^ S8 e) b with
      | none => rfl
      | some dram' => exact ih (i + 1) dram' (by omega)

theorem S8_lt (e : Endian) : S8 e < 4 := by
  cases e <;> simp [S8]

theorem lane_lt_SRAM_SIZE (e : Endian) (x : Nat) (h : x < SRAM_SIZE) : x ^^^ S8 e < SRAM_SIZE := by
  have h1 : x < 2 ^ 15 := by simpa [SRAM_SIZE] using h
  have h2 : S8 e < 2 ^ 15 := lt_trans (S8_lt e) (by norm_num)
  have := Nat.xor_lt_two_pow h1 h2
  simpa [SRAM_SIZE] using this

theorem SRAM_SIZE_eq : SRAM_SIZE = 32768 := rfl

theorem erased_mem : erased.mem = some (List.replicate SRAM_SIZE 0xff) := rfl

theorem erased_length : (List.replicate SRAM_SIZE 0xff).length = SRAM_SIZE :=
  List.length_replicate _ _

theorem read_sram_none (e : Endian) (sram : Sram) (mem : List Nat) (A : Nat)
    (hm : sram.mem = some mem) (h : mem.length ≤ (A &&& SRAM_ADDR_MASK) + 3) :
    read_sram e sram A = none := by
  unfold read_sram
  simp only [hm]
  exact load32_eq_none e mem _ h

theorem write_sram_none (e : Endian) (sram : Sram) (mem : List Nat) (A V M : Nat)
    (hm : sram.mem = some mem) (h : mem.length ≤ (A &&& SRAM_ADDR_MASK) + 3) :
    (write_sram e sram A V M).mem = none := by
  unfold write_sram
  simp only [hm, load32_eq_none e mem _ h]

theorem read_sram_poisoned (e : Endian) (sram : Sram) (A : Nat) (h : sram.mem = none) :
    read_sram e sram A = none := by
  unfold read_sram
  simp only [h]

theorem erased_read_none (e : Endian) (A : Nat) (h : SRAM_SIZE ≤ (A &&& SRAM_ADDR_MASK) + 3) :
    read_sram e erased A = none :=
  read_sram_none e erased _ A erased_mem (by rw [erased_length]; exact h)

theorem erased_write_none (e : Endian) (A V M : Nat) (h : SRAM_SIZE ≤ (A &&& SRAM_ADDR_MASK) + 3) :
    (write_sram e erased A V M).mem = none :=
  write_sram_none e erased _ A V M erased_mem (by rw [erased_length]; exact h)

theorem format_sram_eq (mem : List Nat) (h : SRAM_SIZE ≤ mem.length) :
    format_sram mem = some (List.replicate SRAM_SIZE 0xff ++ mem.drop SRAM_SIZE) := by
  unfold format_sram
  rw [if_pos h]

theorem format_sram_length (mem : List Nat) (h : SRAM_SIZE ≤ mem.length) :
    (List.replicate SRAM_SIZE 0xff ++ mem.drop SRAM_SIZE).length = mem.length := by
  rw [List.length_append, List.length_replicate, List.length_drop]
  omega

theorem mask_eq_mod (C : Nat) : C &&& 0xFFFF = C % 0x10000 := by
  have := Nat.and_pow_two_sub_one_eq_mod C 16
  simpa using this

theorem lane_injective (K c n : Nat) :
    ∀ i i', i < n → i' < n → (c + i) ^^^ K = (c + i') ^^^ K → i = i' := by
  intro i i' _ _ h
  have := Nat.xor_left_inj.mp h
  omega

/-- Effect of `sram_dma_read` on a buffer of capacity `SRAM_SIZE` when the source
bytes exist: `n = min length (SRAM_SIZE - c)` bytes are copied, the others stay. -/
theorem sram_dma_read_spec (e : Endian) (sram : Sram) (mem dram : List Nat) (d C L : Nat)
    (hmem : sram.mem = some mem) (hcap : mem.length = SRAM_SIZE)
    (hsrc : ∀ i, i < min L (SRAM_SIZE - (C &&& SRAM_ADDR_MASK)) → (d + i) ^^^ S8 e < dram.length) :
    ∃ mem', (sram_dma_read e sram dram d C L).1.mem = some mem' ∧ mem'.length = SRAM_SIZE ∧
      (∀ i, i < min L (SRAM_SIZE - (C &&& SRAM_ADDR_MASK)) →
        mem'[((C &&& SRAM_ADDR_MASK) + i) ^^^ S8 e]? = dram[(d + i) ^^^ S8 e]?) ∧
      (∀ x, (∀ i, i < min L (SRAM_SIZE - (C &&& SRAM_ADDR_MASK)) →
        x ≠ ((C &&& SRAM_ADDR_MASK) + i) ^^^ S8 e) → mem'[x]? = mem[x]?) := by
  obtain ⟨mem', hc, hlen, hcopy, hframe⟩ :=
    copy_lanes_spec (S8 e) dram d (C &&& SRAM_ADDR_MASK)
      (min L (SRAM_SIZE - (C &&& SRAM_ADDR_MASK))) 0 mem
      (fun j _ h2 => hsrc j (by omega))
      (fun j _ h2 => by
        rw [hcap]
        exact lane_lt_SRAM_SIZE e _ (by omega))
  have hloop := sram_dma_read_loop_eq e dram d (C &&& SRAM_ADDR_MASK) L
    (min L (SRAM_SIZE - (C &&& SRAM_ADDR_MASK))) 0 mem (by omega)
  refine ⟨mem', ?_, by rw [hlen, hcap], ?_, ?_⟩
  · simp only [sram_dma_read, hmem, hloop, hc]
  · intro i hi
    exact hcopy i (Nat.zero_le i) (by omega)
  · intro x hx
    exact hframe x (fun j _ h2 => hx j (by omega))

/-- Effect of `sram_dma_write` when the bytes it names exist:
`n = min length (dram_size - dram_addr)` bytes are copied, the others stay. -/
theorem sram_dma_write_spec (e : Endian) (sram : Sram) (mem dram : List Nat) (d C L : Nat)
    (hmem : sram.mem = some mem)
    (hsrc : ∀ i, i < min L (sram.dram_size - d) →
      ((C &&& SRAM_ADDR_MASK) + i) ^^^ S8 e < mem.length)
    (hdst : ∀ i, i < min L (sram.dram_size - d) → (d + i) ^^^ S8 e < dram.length) :
    ∃ dram', (sram_dma_write e sram dram d C L).2.1 = some dram' ∧ dram'.length = dram.length ∧
      (∀ i, i < min L (sram.dram_size - d) →
        dram'[(d + i) ^^^ S8 e]? = mem[((C &&& SRAM_ADDR_MASK) + i) ^^^ S8 e]?) ∧
      (∀ x, (∀ i, i < min L (sram.dram_size - d) → x ≠ (d + i) ^^^ S8 e) →
        dram'[x]? = dram[x]?) := by
  obtain ⟨dram', hc, hlen, hcopy, hframe⟩ :=
    copy_lanes_spec (S8 e) mem (C &&& SRAM_ADDR_MASK) d (min L (sram.dram_size - d)) 0 dram
      (fun j _ h2 => hsrc j (by omega))
      (fun j _ h2 => hdst j (by omega))
  have hloop := sram_dma_write_loop_eq e mem sram.dram_size d (C &&& SRAM_ADDR_MASK) L
    (min L (sram.dram_size - d)) 0 dram (by omega)
  refine ⟨dram', ?_, hlen, ?_, ?_⟩
  · simp only [sram_dma_write, hmem, hloop, hc]
  · intro i hi
    exact hcopy i (Nat.zero_le i) (by omega)
  · intro x hx
    exact hframe x (fun j _ h2 => hx j (by omega))

theorem read_sram_eq_load32 (e : Endian) (sram : Sram) (mem : List Nat) (A : Nat)
    (hm : sram.mem = some mem) : read_sram e sram A = load32 e mem (A &&& SRAM_ADDR_MASK) := by
  unfold read_sram
  simp only [hm]

theorem load32_replicate (e : Endian) (n a : Nat) (h : a + 3 < n) :
    load32 e (List.replicate n 0xff) a = some 0xFFFFFFFF := by
  unfold load32
  rw [List.getElem?_replicate, List.getElem?_replicate, List.getElem?_replicate,
    List.getElem?_replicate, if_pos (by omega), if_pos (by omega), if_pos (by omega),
    if_pos (by omega)]
  cases e <;> rfl

theorem erased_read (e : Endian) (A : Nat) (h : (A &&& SRAM_ADDR_MASK) + 3 < SRAM_SIZE) :
    read_sram e erased A = some 0xFFFFFFFF := by
  rw [read_sram_eq_load32 e erased _ A erased_mem]
  exact load32_replicate e SRAM_SIZE _ h

theorem xor_three (x : Nat) : x ^^^ 3 = 4 * (x / 4) + (3 - x % 4) := by
  apply Nat.eq_of_testBit_eq
  intro i
  have hr : x % 4 < 4 := Nat.mod_lt _ (by norm_num)
  have h3 : 3 - x % 4 < 2 ^ 2 := by omega
  have hx4 : x % 4 < 2 ^ 2 := by omega
  have hR := Nat.testBit_mul_pow_two_add (x / 4) h3 i
  have hX := Nat.testBit_mul_pow_two_add (x / 4) hx4 i
  have hxe : 2 ^ 2 * (x / 4) + x % 4 = x := by omega
  rw [hxe] at hX
  simp only [show (2 : Nat) ^ 2 = 4 by norm_num] at hR
  rw [Nat.testBit_xor, hR, hX]
  by_cases hi : i < 2
  · simp only [hi, if_true]
    generalize x % 4 = r at hr
    interval_cases r <;> interval_cases i <;> decide
  · simp only [hi, if_false]
    have h3i : (3 : Nat) < 2 ^ i :=
      lt_of_lt_of_le (by norm_num : (3 : Nat) < 2 ^ 2)
        (Nat.pow_le_pow_right (by norm_num) (by omega))
    rw [Nat.testBit_lt_two_pow h3i]
    simp

theorem lane_lt_of_aligned (e : Endian) (x N : Nat) (hN : N % 4 = 0) (hx : x < N) :
    x ^^^ S8 e < N := by
  cases e
  · show x ^^^ 3 < N
    rw [xor_three]
    omega
  · show x ^^^ 0 < N
    rw [Nat.xor_zero]
    exact hx

theorem lane_add_of_aligned (e : Endian) (c i : Nat) (hc : c % 4 = 0) :
    (c + i) ^^^ S8 e = c + (i ^^^ S8 e) := by
  cases e
  · show (c + i) ^^^ 3 = c + (i ^^^ 3)
    rw [xor_three, xor_three]
    omega
  · show (c + i) ^^^ 0 = c + (i ^^^ 0)
    rw [Nat.xor_zero, Nat.xor_zero]

theorem lane_involutive (K i : Nat) : (i ^^^ K) ^^^ K = i := by
  rw [Nat.xor_assoc, Nat.xor_self, Nat.xor_zero]

/-! ## The indices of the copy -/

theorem mem_lane_accesses (K s t : Nat) (k : Nat) :
    ∀ (i : Nat) (p : Nat × Nat), p ∈ lane_accesses K s t k i ↔
      ∃ j, i ≤ j ∧ j < i + k ∧ p = ((s + j) ^^^ K, (t + j) ^^^ K) := by
  induction k with
  | zero =>
    intro i p
    simp only [lane_accesses, List.not_mem_nil, false_iff]
    rintro ⟨j, h1, h2, _⟩
    omega
  | succ k ih =>
    intro i p
    simp only [lane_accesses, List.mem_cons, ih]
    constructor
    · rintro (h | ⟨j, h1, h2, h3⟩)
      · exact ⟨i, le_refl i, by omega, h⟩
      · exact ⟨j, by omega, by omega, h3⟩
    · rintro ⟨j, h1, h2, h3⟩
      by_cases hj : j = i
      · left
        rw [h3, hj]
      · right
        exact ⟨j, by omega, by omega, h3⟩

theorem sram_dma_read_accesses_eq (e : Endian) (dram_addr cart_addr length : Nat) (n : Nat) :
    ∀ (i : Nat), min length (SRAM_SIZE - cart_addr) - i = n →
      sram_dma_read_accesses e dram_addr cart_addr length i =
        lane_accesses (S8 e) dram_addr cart_addr n i := by
  induction n with
  | zero =>
    intro i h
    rw [sram_dma_read_accesses]
    have hc : ¬ (i < length ∧ cart_addr + i < SRAM_SIZE) := by omega
    simp only [hc, dite_false, lane_accesses]
  | succ n ih =>
    intro i h
    rw [sram_dma_read_accesses]
    have hc : i < length ∧ cart_addr + i < SRAM_SIZE := by omega
    simp only [hc, and_self, dite_true, lane_accesses]
    rw [ih (i + 1) (by omega)]

theorem sram_dma_write_accesses_eq (e : Endian) (dram_size dram_addr cart_addr length : Nat)
    (n : Nat) :
    ∀ (i : Nat), min length (dram_size - dram_addr) - i = n →
      sram_dma_write_accesses e dram_size dram_addr cart_addr length i =
        lane_accesses (S8 e) cart_addr dram_addr n i := by
  induction n with
  | zero =>
    intro i h
    rw [sram_dma_write_accesses]
    have hc : ¬ (i < length ∧ dram_addr + i < dram_size) := by omega
    simp only [hc, dite_false, lane_accesses]
  | succ n ih =>
    intro i h
    rw [sram_dma_write_accesses]
    have hc : i < length ∧ dram_addr + i < dram_size := by omega
    simp only [hc, and_self, dite_true, lane_accesses]
    rw [ih (i + 1) (by omega)]

/-- The copy leaves no buffer exactly when every index it uses is inside its
buffer. -/
theorem copy_lanes_some_iff (K : Nat) (src : List Nat) (s t : Nat) (k : Nat) :
    ∀ (i : Nat) (dst : List Nat),
      (∃ dst', copy_lanes K src s t k i dst = some dst') ↔
        ∀ p, p ∈ lane_accesses K s t k i → p.1 < src.length ∧ p.2 < dst.length := by
  induction k with
  | zero =>
    intro i dst
    simp [copy_lanes, lane_accesses]
  | succ k ih =>
    intro i dst
    constructor
    · rintro ⟨dst', h⟩ p hp
      simp only [copy_lanes] at h
      cases hs : src[(s + i) ^^^ K]? with
      | none => simp [hs] at h
      | some b =>
        simp only [hs] at h
        have hsl : (s + i) ^^^ K < src.length := by
          by_contra hn
          rw [List.getElem?_eq_none (by omega)] at hs
          cases hs
        by_cases hd : (t + i) ^^^ K < dst.length
        · have hst : store8 dst ((t + i) ^^^ K) b = some (dst.set ((t + i) ^^^ K) b) := by
            simp [store8, hd]
          simp only [hst] at h
          simp only [lane_accesses, List.mem_cons] at hp
          rcases hp with hp | hp
          · rw [hp]
            exact ⟨hsl, hd⟩
          · have := (ih (i + 1) (dst.set ((t + i) ^^^ K) b)).mp ⟨dst', h⟩ p hp
            rw [List.length_set] at this
            exact this
        · have hst : store8 dst ((t + i) ^^^ K) b = none := by
            simp [store8, hd]
          simp [hst] at h
    · intro h
      obtain ⟨dst', hc, _⟩ := copy_lanes_spec K src s t (k + 1) i dst
        (fun j h1 h2 => (h _ ((mem_lane_accesses K s t (k + 1) i _).mpr ⟨j, h1, h2, rfl⟩)).1)
        (fun j h1 h2 => (h _ ((mem_lane_accesses K s t (k + 1) i _).mpr ⟨j, h1, h2, rfl⟩)).2)
      exact ⟨dst', hc⟩

theorem sram_dma_read_some_iff (e : Endian) (sram : Sram) (mem dram : List Nat) (d C L : Nat)
    (hmem : sram.mem = some mem) :
    (∃ mem', (sram_dma_read e sram dram d C L).1.mem = some mem') ↔
      ∀ p, p ∈ sram_dma_read_accesses e d (C &&& SRAM_ADDR_MASK) L 0 →
        p.1 < dram.length ∧ p.2 < mem.length := by
  have hloop := sram_dma_read_loop_eq e dram d (C &&& SRAM_ADDR_MASK) L
    (min L (SRAM_SIZE - (C &&& SRAM_ADDR_MASK))) 0 mem (by omega)
  have hacc := sram_dma_read_accesses_eq e d (C &&& SRAM_ADDR_MASK) L
    (min L (SRAM_SIZE - (C &&& SRAM_ADDR_MASK))) 0 (by omega)
  have hres : (sram_dma_read e sram dram d C L).1.mem =
      copy_lanes (S8 e) dram d (C &&& SRAM_ADDR_MASK)
        (min L (SRAM_SIZE - (C &&& SRAM_ADDR_MASK))) 0 mem := by
    simp only [sram_dma_read, hmem, hloop]
  rw [hres, hacc]
  exact copy_lanes_some_iff (S8 e) dram d (C &&& SRAM_ADDR_MASK) _ 0 mem

theorem sram_dma_write_some_iff (e : Endian) (sram : Sram) (mem dram : List Nat) (d C L : Nat)
    (hmem : sram.mem = some mem) :
    (∃ dram', (sram_dma_write e sram dram d C L).2.1 = some dram') ↔
      ∀ p, p ∈ sram_dma_write_accesses e sram.dram_size d (C &&& SRAM_ADDR_MASK) L 0 →
        p.1 < mem.length ∧ p.2 < dram.length := by
  have hloop := sram_dma_write_loop_eq e mem sram.dram_size d (C &&& SRAM_ADDR_MASK) L
    (min L (sram.dram_size - d)) 0 dram (by omega)
  have hacc := sram_dma_write_accesses_eq e sram.dram_size d (C &&& SRAM_ADDR_MASK) L
    (min L (sram.dram_size - d)) 0 (by omega)
  have hres : (sram_dma_write e sram dram d C L).2.1 =
      copy_lanes (S8 e) mem (C &&& SRAM_ADDR_MASK) d (min L (sram.dram_size - d)) 0 dram := by
    simp only [sram_dma_write, hmem, hloop]
  rw [hres, hacc]
  exact copy_lanes_some_iff (S8 e) mem (C &&& SRAM_ADDR_MASK) d _ 0 dram

theorem option_none_of_not_some {α : Type} (o : Option α) (h : ¬ ∃ a, o = some a) : o = none := by
  cases o with
  | none => rfl
  | some a => exact absurd ⟨a, rfl⟩ h

/-- A read of `sram_dma_read` outside the main memory loses the device buffer. -/
theorem sram_dma_read_none (e : Endian) (sram : Sram) (mem dram : List Nat) (d C L : Nat)
    (p : Nat × Nat) (hmem : sram.mem = some mem)
    (hp : p ∈ sram_dma_read_accesses e d (C &&& SRAM_ADDR_MASK) L 0)
    (hout : dram.length ≤ p.1) :
    (sram_dma_read e sram dram d C L).1.mem = none := by
  apply option_none_of_not_some
  intro h
  have := ((sram_dma_read_some_iff e sram mem dram d C L hmem).mp h p hp).1
  omega

/-- A read of `sram_dma_write` outside the device buffer loses the main memory. -/
theorem sram_dma_write_none (e : Endian) (sram : Sram) (mem dram : List Nat) (d C L : Nat)
    (p : Nat × Nat) (hmem : sram.mem = some mem)
    (hp : p ∈ sram_dma_write_accesses e sram.dram_size d (C &&& SRAM_ADDR_MASK) L 0)
    (hout : mem.length ≤ p.1) :
    (sram_dma_write e sram dram d C L).2.1 = none := by
  apply option_none_of_not_some
  intro h
  have := ((sram_dma_write_some_iff e sram mem dram d C L hmem).mp h p hp).1
  omega

theorem sram_dma_write_poisoned (e : Endian) (sram : Sram) (dram : List Nat) (d C L : Nat)
    (h : sram.mem = none) : (sram_dma_write e sram dram d C L).2.1 = none := by
  simp only [sram_dma_write, h]

theorem mem_sram_dma_read_accesses (e : Endian) (d c L : Nat) (p : Nat × Nat) :
    p ∈ sram_dma_read_accesses e d c L 0 ↔
      ∃ i, i < L ∧ c + i < SRAM_SIZE ∧ p = ((d + i) ^^^ S8 e, (c + i) ^^^ S8 e) := by
  rw [sram_dma_read_accesses_eq e d c L (min L (SRAM_SIZE - c)) 0 (by omega),
    mem_lane_accesses]
  constructor
  · rintro ⟨j, _, h2, h3⟩
    exact ⟨j, by omega, by omega, h3⟩
  · rintro ⟨j, h1, h2, h3⟩
    exact ⟨j, Nat.zero_le j, by omega, h3⟩

theorem mem_sram_dma_write_accesses (e : Endian) (dram_size d c L : Nat) (p : Nat × Nat) :
    p ∈ sram_dma_write_accesses e dram_size d c L 0 ↔
      ∃ i, i < L ∧ d + i < dram_size ∧ p = ((c + i) ^^^ S8 e, (d + i) ^^^ S8 e) := by
  rw [sram_dma_write_accesses_eq e dram_size d c L (min L (dram_size - d)) 0 (by omega),
    mem_lane_accesses]
  constructor
  · rintro ⟨j, _, h2, h3⟩
    exact ⟨j, by omega, by omega, h3⟩
  · rintro ⟨j, h1, h2, h3⟩
    exact ⟨j, Nat.zero_le j, by omega, h3⟩

/-! ## The claims -/

/-- C2. Partial-mask preservation: when `old` is the word at offset `A & 0xFFFF`
before `write_sram(A, V, M)`, the word at that offset afterwards is
`(old & ~M) | (V & M)`: each of its 32 bit positions holds the bit of `V` where
`M` is set and the bit of `old` where `M` is clear. -/
theorem C2_write_sram_partial_mask (e : Endian) (sram : Sram) (A V M old : Nat)
    (hold : read_sram e sram A = some old) (hM : M < 2 ^ 32) :
    read_sram e (write_sram e sram A V M) A =
        some ((old &&& (0xFFFFFFFF ^^^ M)) ||| (V &&& M)) ∧
      ∀ k, k < 32 → ((old &&& (0xFFFFFFFF ^^^ M)) ||| (V &&& M)).testBit k =
        if M.testBit k then V.testBit k else old.testBit k :=
  ⟨read_write_sram e sram A V M old hold hM, fun k hk => masked_write_testBit old V M k hk⟩

/-- Instance of C2: the erased device, address `0x10004`, value `0x12345678`, mask
`0x0000FFFF`; the word before the write is `0xFFFFFFFF`. -/
theorem C2_write_sram_partial_mask_witness :
    read_sram Endian.little erased 0x10004 = some 0xFFFFFFFF ∧ 0x0000FFFF < 2 ^ 32 ∧
      (read_sram Endian.little (write_sram Endian.little erased 0x10004 0x12345678 0x0000FFFF)
          0x10004 = some ((0xFFFFFFFF &&& (0xFFFFFFFF ^^^ 0x0000FFFF)) |||
            (0x12345678 &&& 0x0000FFFF)) ∧
        ∀ k, k < 32 → ((0xFFFFFFFF &&& (0xFFFFFFFF ^^^ 0x0000FFFF)) |||
            (0x12345678 &&& 0x0000FFFF)).testBit k =
          if (0x0000FFFF).testBit k then (0x12345678).testBit k else (0xFFFFFFFF).testBit k) :=
  ⟨erased_read Endian.little 0x10004 (by decide), by norm_num,
    C2_write_sram_partial_mask Endian.little erased 0x10004 0x12345678 0x0000FFFF 0xFFFFFFFF
      (erased_read Endian.little 0x10004 (by decide)) (by norm_num)⟩

/-- C3. Into-device DMA on a buffer of capacity `SRAM_SIZE` writes exactly
`n = min(L, SRAM_SIZE - C mod 0x10000)` bytes (none when `C mod 0x10000` is at or
above the capacity): with `c = C & 0xFFFF`, the device byte at `(c+i) XOR S8`
is afterwards the main-memory byte at `(d+i) XOR S8` for every `i < n`, these
`n` indices are pairwise distinct, and every other device byte is unchanged. The
main-memory bytes the claim names are taken to exist. -/
theorem C3_sram_dma_read_writes_min (e : Endian) (sram : Sram) (mem dram : List Nat)
    (d C L : Nat) (hmem : sram.mem = some mem) (hcap : mem.length = SRAM_SIZE)
    (hsrc : ∀ i, i < min L (SRAM_SIZE - C % 0x10000) → (d + i) ^^^ S8 e < dram.length) :
    ∃ mem', (sram_dma_read e sram dram d C L).1.mem = some mem' ∧ mem'.length = SRAM_SIZE ∧
      (∀ i, i < min L (SRAM_SIZE - C % 0x10000) →
        mem'[((C &&& 0xFFFF) + i) ^^^ S8 e]? = dram[(d + i) ^^^ S8 e]?) ∧
      (∀ x, (∀ i, i < min L (SRAM_SIZE - C % 0x10000) → x ≠ ((C &&& 0xFFFF) + i) ^^^ S8 e) →
        mem'[x]? = mem[x]?) ∧
      (∀ i i', i < min L (SRAM_SIZE - C % 0x10000) → i' < min L (SRAM_SIZE - C % 0x10000) →
        ((C &&& 0xFFFF) + i) ^^^ S8 e = ((C &&& 0xFFFF) + i') ^^^ S8 e → i = i') ∧
      (SRAM_SIZE ≤ C % 0x10000 → min L (SRAM_SIZE - C % 0x10000) = 0) := by
  rw [← mask_eq_mod C] at hsrc ⊢
  obtain ⟨mem', h1, h2, h3, h4⟩ := sram_dma_read_spec e sram mem dram d C L hmem hcap hsrc
  exact ⟨mem', h1, h2, h3, h4, lane_injective (S8 e) (C &&& 0xFFFF) _, fun h => by omega⟩

/-- Instance of C3: the erased device, device address `0x17FFC`, length 8, main
memory offset 4 in a main memory of 16 bytes; four bytes are written. -/
theorem C3_sram_dma_read_writes_min_witness :
    erased.mem = some (List.replicate SRAM_SIZE 0xff) ∧
      (List.replicate SRAM_SIZE 0xff).length = SRAM_SIZE ∧
      (∀ i, i < min 8 (SRAM_SIZE - 0x17FFC % 0x10000) →
        (4 + i) ^^^ S8 Endian.little < dram16.length) ∧
      ∃ mem', (sram_dma_read Endian.little erased dram16 4 0x17FFC 8).1.mem = some mem' ∧
        mem'.length = SRAM_SIZE ∧
        (∀ i, i < min 8 (SRAM_SIZE - 0x17FFC % 0x10000) →
          mem'[((0x17FFC &&& 0xFFFF) + i) ^^^ S8 Endian.little]? =
            dram16[(4 + i) ^^^ S8 Endian.little]?) ∧
        (∀ x, (∀ i, i < min 8 (SRAM_SIZE - 0x17FFC % 0x10000) →
          x ≠ ((0x17FFC &&& 0xFFFF) + i) ^^^ S8 Endian.little) →
          mem'[x]? = (List.replicate SRAM_SIZE 0xff)[x]?) ∧
        (∀ i i', i < min 8 (SRAM_SIZE - 0x17FFC % 0x10000) →
          i' < min 8 (SRAM_SIZE - 0x17FFC % 0x10000) →
          ((0x17FFC &&& 0xFFFF) + i) ^^^ S8 Endian.little =
            ((0x17FFC &&& 0xFFFF) + i') ^^^ S8 Endian.little → i = i') ∧
        (SRAM_SIZE ≤ 0x17FFC % 0x10000 → min 8 (SRAM_SIZE - 0x17FFC % 0x10000) = 0) :=
  have hn : min 8 (SRAM_SIZE - 0x17FFC % 0x10000) = 4 := by decide
  have hsrc : ∀ i, i < min 8 (SRAM_SIZE - 0x17FFC % 0x10000) →
      (4 + i) ^^^ S8 Endian.little < dram16.length := by
    intro i hi
    rw [hn] at hi
    interval_cases i <;> decide
  ⟨erased_mem, erased_length, hsrc,
    C3_sram_dma_read_writes_min Endian.little erased _ dram16 4 0x17FFC 8 erased_mem
      erased_length hsrc⟩

/-- C4 (fails on the code). Into-device DMA at device address `SRAM_SIZE - 2` with
length 8 on a device of capacity `SRAM_SIZE`: two bytes are written and every
other byte is unchanged, yet the one `save` call made has length 8, the
requested length, and not 2. -/
theorem C4_save_length_is_requested_length (e : Endian) :
    (sram_dma_read e erased [1, 2, 3, 4, 5, 6, 7, 8] 0 (SRAM_SIZE - 2) 8).1.saved
        = [(SRAM_SIZE - 2, 8)] ∧
      (sram_dma_read e erased [1, 2, 3, 4, 5, 6, 7, 8] 0 (SRAM_SIZE - 2) 8).1.saved
        ≠ [(SRAM_SIZE - 2, 2)] ∧
      ∃ mem', (sram_dma_read e erased [1, 2, 3, 4, 5, 6, 7, 8] 0 (SRAM_SIZE - 2) 8).1.mem
          = some mem' ∧
        ∀ x, x ≠ (SRAM_SIZE - 2) ^^^ S8 e → x ≠ (SRAM_SIZE - 1) ^^^ S8 e →
          mem'[x]? = (List.replicate SRAM_SIZE 0xff)[x]? := by
  have hs : (sram_dma_read e erased [1, 2, 3, 4, 5, 6, 7, 8] 0 (SRAM_SIZE - 2) 8).1.saved
      = [(SRAM_SIZE - 2, 8)] := rfl
  have hn : min 8 (SRAM_SIZE - ((SRAM_SIZE - 2) &&& SRAM_ADDR_MASK)) = 2 := by decide
  have hc : (SRAM_SIZE - 2) &&& SRAM_ADDR_MASK = SRAM_SIZE - 2 := by decide
  refine ⟨hs, ?_, ?_⟩
  · rw [hs]
    decide
  · obtain ⟨mem', h1, _, _, h4⟩ := sram_dma_read_spec e erased _ [1, 2, 3, 4, 5, 6, 7, 8] 0
      (SRAM_SIZE - 2) 8 erased_mem erased_length (by
        intro i hi
        rw [hn] at hi
        have := S8_lt e
        interval_cases i <;> cases e <;> decide)
    refine ⟨mem', h1, fun x hx0 hx1 => h4 x ?_⟩
    intro i hi
    rw [hn] at hi
    rw [hc]
    interval_cases i
    · exact hx0
    · exact hx1

/-- C5. Persistence requests: every `write_sram(A, V, M)` appends exactly one
entry `(A & 0xFFFF, 4)` to the log of `save` calls and every `sram_dma_read`
appends exactly one entry, whatever the arguments; after `format_sram` on a
buffer of 32768 bytes and `write_sram(0, 0xDEADBEEF, 0xFFFFFFFF)` the log is
`[(0, 4)]` and `read_sram(0)` returns `0xDEADBEEF`. -/
theorem C5_one_save_per_write :
    (∀ (e : Endian) (sram : Sram) (A V M : Nat),
        (write_sram e sram A V M).saved = sram.saved ++ [(A &&& 0xFFFF, 4)]) ∧
      (∀ (e : Endian) (sram : Sram) (dram : List Nat) (d C L : Nat),
        (sram_dma_read e sram dram d C L).1.saved = sram.saved ++ [(C &&& 0xFFFF, L)]) ∧
      (∀ (e : Endian) (m : List Nat) (ds : Nat), m.length = 32768 →
        (write_sram e (formatted m ds) 0 0xDEADBEEF 0xFFFFFFFF).saved = [(0, 4)] ∧
          read_sram e (write_sram e (formatted m ds) 0 0xDEADBEEF 0xFFFFFFFF) 0
            = some 0xDEADBEEF) := by
  refine ⟨fun e sram A V M => rfl, fun e sram dram d C L => rfl, ?_⟩
  intro e m ds hm
  refine ⟨rfl, ?_⟩
  have hf : format_sram m = some (List.replicate SRAM_SIZE 0xff ++ m.drop SRAM_SIZE) :=
    format_sram_eq m (by rw [hm, SRAM_SIZE_eq])
  have hlen : (List.replicate SRAM_SIZE 0xff ++ m.drop SRAM_SIZE).length = 32768 := by
    rw [format_sram_length m (by rw [hm, SRAM_SIZE_eq]), hm]
  obtain ⟨old, hold⟩ := load32_isSome e (List.replicate SRAM_SIZE 0xff ++ m.drop SRAM_SIZE)
    (0 &&& SRAM_ADDR_MASK) (by rw [hlen, Nat.zero_and]; norm_num)
  have hread : read_sram e (formatted m ds) 0 = some old := by
    simp only [read_sram, formatted, hf, hold]
  rw [read_write_sram e (formatted m ds) 0 0xDEADBEEF 0xFFFFFFFF old hread (by norm_num)]
  rw [masked_write_full old 0xDEADBEEF (by norm_num)]

/-- Instance of the scenario of C5 on a buffer of 32768 zero bytes. -/
theorem C5_one_save_per_write_witness :
    (List.replicate 32768 0).length = 32768 ∧
      (write_sram Endian.little (formatted (List.replicate 32768 0) 0x800000) 0 0xDEADBEEF
          0xFFFFFFFF).saved = [(0, 4)] ∧
      read_sram Endian.little (write_sram Endian.little
          (formatted (List.replicate 32768 0) 0x800000) 0 0xDEADBEEF 0xFFFFFFFF) 0
        = some 0xDEADBEEF :=
  ⟨List.length_replicate _ _,
    C5_one_save_per_write.2.2 Endian.little (List.replicate 32768 0) 0x800000
      (List.length_replicate _ _)⟩

/-- C6. From-device DMA is bounded only by the main-memory size: with
`c = C & 0xFFFF` and `n = min(L, dram_size - d)` (none when `d` is at or above
`dram_size`), the main-memory byte at `(d+i) XOR S8` is afterwards the device
byte at `(c+i) XOR S8` for every `i < n`, these `n` indices are pairwise
distinct, and every other main-memory byte is unchanged. The length of the
device buffer is arbitrary and `n` does not mention it; the bytes the claim
names are taken to exist. -/
theorem C6_sram_dma_write_bounded_by_dram_size (e : Endian) (sram : Sram) (mem dram : List Nat)
    (d C L : Nat) (hmem : sram.mem = some mem)
    (hsrc : ∀ i, i < min L (sram.dram_size - d) → ((C &&& 0xFFFF) + i) ^^^ S8 e < mem.length)
    (hdst : ∀ i, i < min L (sram.dram_size - d) → (d + i) ^^^ S8 e < dram.length) :
    ∃ dram', (sram_dma_write e sram dram d C L).2.1 = some dram' ∧ dram'.length = dram.length ∧
      (∀ i, i < min L (sram.dram_size - d) →
        dram'[(d + i) ^^^ S8 e]? = mem[((C &&& 0xFFFF) + i) ^^^ S8 e]?) ∧
      (∀ x, (∀ i, i < min L (sram.dram_size - d) → x ≠ (d + i) ^^^ S8 e) →
        dram'[x]? = dram[x]?) ∧
      (∀ i i', i < min L (sram.dram_size - d) → i' < min L (sram.dram_size - d) →
        (d + i) ^^^ S8 e = (d + i') ^^^ S8 e → i = i') ∧
      (sram.dram_size ≤ d → min L (sram.dram_size - d) = 0) := by
  obtain ⟨dram', h1, h2, h3, h4⟩ := sram_dma_write_spec e sram mem dram d C L hmem hsrc hdst
  exact ⟨dram', h1, h2, h3, h4, lane_injective (S8 e) d _, fun h => by omega⟩

/-- Instance of C6: the erased device, main memory of 16 bytes, main-memory offset
12, device address `0x10000`, length 8; four bytes are copied. -/
theorem C6_sram_dma_write_bounded_by_dram_size_witness :
    erased16.mem = some (List.replicate SRAM_SIZE 0xff) ∧
      (∀ i, i < min 8 (erased16.dram_size - 12) →
        ((0x10000 &&& 0xFFFF) + i) ^^^ S8 Endian.little < (List.replicate SRAM_SIZE 0xff).length) ∧
      (∀ i, i < min 8 (erased16.dram_size - 12) →
        (12 + i) ^^^ S8 Endian.little < dram16.length) ∧
      ∃ dram', (sram_dma_write Endian.little erased16 dram16 12 0x10000 8).2.1 = some dram' ∧
        dram'.length = dram16.length ∧
        (∀ i, i < min 8 (erased16.dram_size - 12) →
          dram'[(12 + i) ^^^ S8 Endian.little]? =
            (List.replicate SRAM_SIZE 0xff)[((0x10000 &&& 0xFFFF) + i) ^^^ S8 Endian.little]?) ∧
        (∀ x, (∀ i, i < min 8 (erased16.dram_size - 12) →
          x ≠ (12 + i) ^^^ S8 Endian.little) → dram'[x]? = dram16[x]?) ∧
        (∀ i i', i < min 8 (erased16.dram_size - 12) → i' < min 8 (erased16.dram_size - 12) →
          (12 + i) ^^^ S8 Endian.little = (12 + i') ^^^ S8 Endian.little → i = i') ∧
        (erased16.dram_size ≤ 12 → min 8 (erased16.dram_size - 12) = 0) :=
  have hn : min 8 (erased16.dram_size - 12) = 4 := by decide
  have hsrc : ∀ i, i < min 8 (erased16.dram_size - 12) →
      ((0x10000 &&& 0xFFFF) + i) ^^^ S8 Endian.little
        < (List.replicate SRAM_SIZE 0xff).length := by
    intro i hi
    rw [hn] at hi
    rw [erased_length]
    interval_cases i <;> decide
  have hdst : ∀ i, i < min 8 (erased16.dram_size - 12) →
      (12 + i) ^^^ S8 Endian.little < dram16.length := by
    intro i hi
    rw [hn] at hi
    interval_cases i <;> decide
  ⟨rfl, hsrc, hdst,
    C6_sram_dma_write_bounded_by_dram_size Endian.little erased16 _ dram16 12 0x10000 8 rfl
      hsrc hdst⟩

/-- C7. From-device DMA is read-only with respect to the device: whatever the
arguments, `sram_dma_write` leaves the backing buffer as it was and appends
nothing to the log of `save` calls. -/
theorem C7_sram_dma_write_device_unchanged (e : Endian) (sram : Sram) (dram : List Nat)
    (d C L : Nat) :
    (sram_dma_write e sram dram d C L).1.mem = sram.mem ∧
      (sram_dma_write e sram dram d C L).1.saved = sram.saved :=
  ⟨rfl, rfl⟩

/-- C8. Address aliasing: every register and DMA operation given the device
address `A` yields the same value, the same buffers and the same log of `save`
calls as when given `A & 0xFFFF`; in particular `read_sram` and `write_sram` at
`0x10004` are those at `0x0004`. -/
theorem C8_address_aliasing (e : Endian) (sram : Sram) (dram : List Nat) (A V M d L : Nat) :
    read_sram e sram A = read_sram e sram (A &&& 0xFFFF) ∧
      write_sram e sram A V M = write_sram e sram (A &&& 0xFFFF) V M ∧
      sram_dma_read e sram dram d A L = sram_dma_read e sram dram d (A &&& 0xFFFF) L ∧
      sram_dma_write e sram dram d A L = sram_dma_write e sram dram d (A &&& 0xFFFF) L ∧
      read_sram e sram 0x10004 = read_sram e sram 0x0004 ∧
      write_sram e sram 0x10004 V M = write_sram e sram 0x0004 V M := by
  have h4 : (0x10004 : Nat) &&& SRAM_ADDR_MASK = 0x0004 &&& SRAM_ADDR_MASK := by decide
  refine ⟨?_, ?_, ?_, ?_, ?_, ?_⟩
  · simp only [read_sram, mask_idem]
  · simp only [write_sram, mask_idem]
  · simp only [sram_dma_read, mask_idem]
  · simp only [sram_dma_write, mask_idem]
  · simp only [read_sram, h4]
  · simp only [write_sram, h4]

/-- C9. Function `format_sram` on a buffer that has the indices `0 .. SRAM_SIZE-1`
sets every byte at these indices to `0xFF` whatever the buffer held, keeps the
length, and is idempotent: formatting the formatted buffer yields it again. -/
theorem C9_format_sram_fills_and_idempotent (mem : List Nat) (h : SRAM_SIZE ≤ mem.length) :
    ∃ mem', format_sram mem = some mem' ∧ mem'.length = mem.length ∧
      (∀ i, i < SRAM_SIZE → mem'[i]? = some 0xff) ∧
      format_sram mem' = some mem' := by
  have hlen := format_sram_length mem h
  refine ⟨_, format_sram_eq mem h, hlen, ?_, ?_⟩
  · intro i hi
    rw [List.getElem?_append_left (by rw [List.length_replicate]; exact hi),
      List.getElem?_replicate, if_pos hi]
  · rw [format_sram_eq _ (by rw [hlen]; exact h), List.drop_left' (List.length_replicate _ _)]

/-- Instance of C9 on a buffer of `SRAM_SIZE` zero bytes. -/
theorem C9_format_sram_fills_and_idempotent_witness :
    SRAM_SIZE ≤ (List.replicate SRAM_SIZE 0).length ∧
      ∃ mem', format_sram (List.replicate SRAM_SIZE 0) = some mem' ∧
        mem'.length = (List.replicate SRAM_SIZE 0).length ∧
        (∀ i, i < SRAM_SIZE → mem'[i]? = some 0xff) ∧
        format_sram mem' = some mem' :=
  ⟨(List.length_replicate _ _).ge,
    C9_format_sram_fills_and_idempotent (List.replicate SRAM_SIZE 0)
      (List.length_replicate _ _).ge⟩

/-- C10 (fails on the code). The register window is not inside the backing
capacity: at address `0x8000` the masked offset is `0x8000`, its four bytes are
not below `SRAM_SIZE`, and on a device of capacity `SRAM_SIZE` both `read_sram`
and `write_sram` leave the buffer. -/
theorem C10_register_window_exceeds_capacity (e : Endian) :
    (0x8000 &&& SRAM_ADDR_MASK) = 0x8000 ∧
      ¬ ((0x8000 &&& SRAM_ADDR_MASK) + 3 < SRAM_SIZE) ∧
      read_sram e erased 0x8000 = none ∧
      (write_sram e erased 0x8000 0 0xFFFFFFFF).mem = none :=
  ⟨by decide, by decide, erased_read_none e _ (by decide), erased_write_none e _ _ _ (by decide)⟩

/-- C11. Into-device DMA never wraps and never writes outside the device: every
index written by `sram_dma_read` is `(c+i) XOR S8` for an `i` below the length with
`c + i` below `SRAM_SIZE`, where `c = C & 0xFFFF`, and it is strictly below
`SRAM_SIZE`; on a buffer of capacity `SRAM_SIZE` the call keeps the buffer
whenever its reads of main memory are inside main memory. -/
theorem C11_sram_dma_read_writes_inside_device (e : Endian) (d C L : Nat) :
    (∀ p, p ∈ sram_dma_read_accesses e d (C &&& 0xFFFF) L 0 →
      (∃ i, i < L ∧ (C &&& 0xFFFF) + i < SRAM_SIZE ∧ p.2 = ((C &&& 0xFFFF) + i) ^^^ S8 e) ∧
        p.2 < SRAM_SIZE) ∧
      (∀ (sram : Sram) (mem dram : List Nat), sram.mem = some mem → mem.length = SRAM_SIZE →
        (∀ p, p ∈ sram_dma_read_accesses e d (C &&& 0xFFFF) L 0 → p.1 < dram.length) →
        ∃ mem', (sram_dma_read e sram dram d C L).1.mem = some mem') := by
  have hb : ∀ p, p ∈ sram_dma_read_accesses e d (C &&& 0xFFFF) L 0 →
      (∃ i, i < L ∧ (C &&& 0xFFFF) + i < SRAM_SIZE ∧ p.2 = ((C &&& 0xFFFF) + i) ^^^ S8 e) ∧
        p.2 < SRAM_SIZE := by
    intro p hp
    obtain ⟨i, h1, h2, h3⟩ := (mem_sram_dma_read_accesses e d (C &&& 0xFFFF) L p).mp hp
    refine ⟨⟨i, h1, h2, by rw [h3]⟩, ?_⟩
    rw [h3]
    exact lane_lt_SRAM_SIZE e _ h2
  refine ⟨hb, ?_⟩
  intro sram mem dram hmem hcap hsrc
  apply (sram_dma_read_some_iff e sram mem dram d C L hmem).mpr
  intro p hp
  refine ⟨hsrc p hp, ?_⟩
  rw [hcap]
  exact (hb p hp).2

/-- Instance of C11: device address `0x17FFC`, length 8, main-memory offset 4 on a
little-endian host; the last iteration writes the index `0x7FFC`. -/
theorem C11_sram_dma_read_writes_inside_device_witness :
    ((4, 0x7FFC) : Nat × Nat) ∈ sram_dma_read_accesses Endian.little 4 (0x17FFC &&& 0xFFFF) 8 0 ∧
      ((∃ i, i < 8 ∧ (0x17FFC &&& 0xFFFF) + i < SRAM_SIZE ∧
          ((4, 0x7FFC) : Nat × Nat).2 = ((0x17FFC &&& 0xFFFF) + i) ^^^ S8 Endian.little) ∧
        ((4, 0x7FFC) : Nat × Nat).2 < SRAM_SIZE) :=
  have hp : ((4, 0x7FFC) : Nat × Nat) ∈
      sram_dma_read_accesses Endian.little 4 (0x17FFC &&& 0xFFFF) 8 0 :=
    (mem_sram_dma_read_accesses Endian.little 4 (0x17FFC &&& 0xFFFF) 8 (4, 0x7FFC)).mpr
      ⟨3, by decide, by decide, by decide⟩
  ⟨hp, (C11_sram_dma_read_writes_inside_device Endian.little 4 0x17FFC 8).1 (4, 0x7FFC) hp⟩

/-- C12 (fails on the code). DMA leaves its buffers without truncating. With a
main memory of 16 bytes and a device of capacity `SRAM_SIZE`: `sram_dma_read`
at main-memory offset 16 reads the main-memory index `16 XOR S8`, which is not
below 16, and `sram_dma_write` at device address `0x8000` reads the device
index `0x8000 XOR S8`, which is not below `SRAM_SIZE`; with checked indexing
both reach the out-of-bounds branch. -/
theorem C12_dma_reads_outside_buffers (e : Endian) :
    dram16.length = 16 ∧ erased16.dram_size = 16 ∧
      erased16.mem = some (List.replicate SRAM_SIZE 0xff) ∧
      (16 ^^^ S8 e, 0 ^^^ S8 e) ∈ sram_dma_read_accesses e 16 (0 &&& SRAM_ADDR_MASK) 4 0 ∧
      dram16.length ≤ 16 ^^^ S8 e ∧
      (sram_dma_read e erased16 dram16 16 0 4).1.mem = none ∧
      (0x8000 ^^^ S8 e, 0 ^^^ S8 e) ∈
        sram_dma_write_accesses e 16 0 (0x8000 &&& SRAM_ADDR_MASK) 4 0 ∧
      SRAM_SIZE ≤ 0x8000 ^^^ S8 e ∧
      (sram_dma_write e erased16 dram16 0 0x8000 4).2.1 = none := by
  have hr : (16 ^^^ S8 e, 0 ^^^ S8 e) ∈
      sram_dma_read_accesses e 16 (0 &&& SRAM_ADDR_MASK) 4 0 :=
    (mem_sram_dma_read_accesses e 16 (0 &&& SRAM_ADDR_MASK) 4 _).mpr
      ⟨0, by decide, by decide, rfl⟩
  have hw : (0x8000 ^^^ S8 e, 0 ^^^ S8 e) ∈
      sram_dma_write_accesses e 16 0 (0x8000 &&& SRAM_ADDR_MASK) 4 0 :=
    (mem_sram_dma_write_accesses e 16 0 (0x8000 &&& SRAM_ADDR_MASK) 4 _).mpr
      ⟨0, by decide, by decide, rfl⟩
  have hro : dram16.length ≤ 16 ^^^ S8 e := by cases e <;> decide
  have hwo : SRAM_SIZE ≤ 0x8000 ^^^ S8 e := by cases e <;> decide
  refine ⟨rfl, rfl, rfl, hr, hro, ?_, hw, hwo, ?_⟩
  · exact sram_dma_read_none e erased16 _ dram16 16 0 4 _ rfl hr hro
  · exact sram_dma_write_none e erased16 _ dram16 0 0x8000 4 _ rfl hw
      (by rw [erased_length]; exact hwo)

/-- C13. Both DMA directions return the cost token `0x1000`, whatever the
arguments, the requested length and the number of bytes moved. -/
theorem C13_dma_cost_token (e : Endian) (sram : Sram) (dram : List Nat) (d C L : Nat) :
    (sram_dma_read e sram dram d C L).2 = 0x1000 ∧
      (sram_dma_write e sram dram d C L).2.2 = 0x1000 :=
  ⟨rfl, rfl⟩

/-- C14 (as stated, fails). DMA round trip with a main memory of 5 bytes on a
little-endian host, `C = 0`, `L = 1`, `d = d' = 4`: the three stated bounds hold,
yet the byte `dram[(4+0) XOR 3]` the transfer reads does not exist, the
into-device transfer leaves the main memory and neither the device buffer nor
the second main memory is known afterwards. -/
theorem C14_round_trip_unaligned_size :
    (0 &&& 0xFFFF) + 1 ≤ SRAM_SIZE ∧ 4 + 1 ≤ erased5.dram_size ∧
      dram5.length = erased5.dram_size ∧
      erased5.mem = some (List.replicate SRAM_SIZE 0xff) ∧
      dram5[(4 + 0) ^^^ S8 Endian.little]? = none ∧
      (sram_dma_read Endian.little erased5 dram5 4 0 1).1.mem = none ∧
      ¬ ∃ out, (sram_dma_write Endian.little (sram_dma_read Endian.little erased5 dram5 4 0 1).1
        dram5 4 0 1).2.1 = some out := by
  have hp : ((7, 3) : Nat × Nat) ∈
      sram_dma_read_accesses Endian.little 4 (0 &&& SRAM_ADDR_MASK) 1 0 :=
    (mem_sram_dma_read_accesses Endian.little 4 (0 &&& SRAM_ADDR_MASK) 1 (7, 3)).mpr
      ⟨0, by decide, by decide, by decide⟩
  have hr : (sram_dma_read Endian.little erased5 dram5 4 0 1).1.mem = none :=
    sram_dma_read_none Endian.little erased5 _ dram5 4 0 1 (7, 3) rfl hp (by decide)
  refine ⟨by decide, by decide, rfl, rfl, by decide, hr, ?_⟩
  rintro ⟨out, hout⟩
  rw [sram_dma_write_poisoned Endian.little _ dram5 4 0 1 hr] at hout
  cases hout

/-- C14 (amended). DMA round trip when the main-memory size is a multiple of 4: on
a device of capacity `SRAM_SIZE` and main memories of at least `dram_size`
bytes, if `(C & 0xFFFF) + L` is within the capacity and `d + L`, `d' + L` are
within `dram_size`, then `sram_dma_read(dram, d, C, L)` followed by
`sram_dma_write(dram2, d', C, L)` leaves in the second main memory, at
`(d'+i) XOR S8`, the byte of the first at `(d+i) XOR S8`, for every `i < L`. -/
theorem C14_dma_round_trip (e : Endian) (sram : Sram) (mem dram dram2 : List Nat)
    (d d' C L : Nat) (hmem : sram.mem = some mem) (hcap : mem.length = SRAM_SIZE)
    (h4 : sram.dram_size % 4 = 0) (hdram : sram.dram_size ≤ dram.length)
    (hdram2 : sram.dram_size ≤ dram2.length) (hC : (C &&& 0xFFFF) + L ≤ SRAM_SIZE)
    (hd : d + L ≤ sram.dram_size) (hd' : d' + L ≤ sram.dram_size) :
    ∃ out, (sram_dma_write e (sram_dma_read e sram dram d C L).1 dram2 d' C L).2.1 = some out ∧
      ∀ i, i < L → ∃ b, dram[(d + i) ^^^ S8 e]? = some b ∧ out[(d' + i) ^^^ S8 e]? = some b := by
  have hC' : (C &&& SRAM_ADDR_MASK) + L ≤ SRAM_SIZE := hC
  have hsrc : ∀ i, i < L → (d + i) ^^^ S8 e < dram.length := fun i hi =>
    lt_of_lt_of_le (lane_lt_of_aligned e (d + i) sram.dram_size h4 (by omega)) hdram
  obtain ⟨mem', hm', hlen', hcopy, _⟩ := sram_dma_read_spec e sram mem dram d C L hmem hcap
    (fun i hi => hsrc i (by omega))
  have hds : (sram_dma_read e sram dram d C L).1.dram_size = sram.dram_size := rfl
  obtain ⟨out, ho, _, hcopy2, _⟩ := sram_dma_write_spec e (sram_dma_read e sram dram d C L).1
    mem' dram2 d' C L hm'
    (fun i hi => by
      rw [hlen']
      rw [hds] at hi
      exact lane_lt_SRAM_SIZE e _ (by omega))
    (fun i hi => by
      rw [hds] at hi
      exact lt_of_lt_of_le (lane_lt_of_aligned e (d' + i) sram.dram_size h4 (by omega)) hdram2)
  refine ⟨out, ho, ?_⟩
  intro i hi
  have hlt := hsrc i hi
  refine ⟨dram[(d + i) ^^^ S8 e], List.getElem?_eq_getElem hlt, ?_⟩
  rw [hcopy2 i (by rw [hds]; omega), hcopy i (by omega)]
  exact List.getElem?_eq_getElem hlt

/-- Instance of the amended C14: the erased device, a main memory of 16 bytes copied
from offset 0 into the device at `0x10000` and back to offset 8, length 8. -/
theorem C14_dma_round_trip_witness :
    erased16.mem = some (List.replicate SRAM_SIZE 0xff) ∧
      (List.replicate SRAM_SIZE 0xff).length = SRAM_SIZE ∧
      erased16.dram_size % 4 = 0 ∧ erased16.dram_size ≤ dram16.length ∧
      erased16.dram_size ≤ dram16.length ∧ (0x10000 &&& 0xFFFF) + 8 ≤ SRAM_SIZE ∧
      0 + 8 ≤ erased16.dram_size ∧ 8 + 8 ≤ erased16.dram_size ∧
      ∃ out, (sram_dma_write Endian.little
          (sram_dma_read Endian.little erased16 dram16 0 0x10000 8).1 dram16 8 0x10000 8).2.1
          = some out ∧
        ∀ i, i < 8 → ∃ b, dram16[(0 + i) ^^^ S8 Endian.little]? = some b ∧
          out[(8 + i) ^^^ S8 Endian.little]? = some b :=
  ⟨rfl, erased_length, by decide, by decide, by decide, by decide, by decide, by decide,
    C14_dma_round_trip Endian.little erased16 _ dram16 dram16 0 8 0x10000 8 rfl erased_length
      (by decide) (by decide) (by decide) (by decide) (by decide) (by decide)⟩

/-- C15. For word-aligned transfers into-device DMA is a plain block copy: on
either host, when `c = C & 0xFFFF`, `d` and `L` are multiples of 4 and
`n = min(L, SRAM_SIZE - c)`, after `sram_dma_read` the device byte at `c+j` is the
main-memory byte at `d+j` for every `j < n`, every device byte outside
`[c, c+n)` is unchanged, and the indices written are exactly those of
`[c, c+n)`. The main-memory bytes the claim names are taken to exist. -/
theorem C15_aligned_dma_is_block_copy (e : Endian) (sram : Sram) (mem dram : List Nat)
    (d C L : Nat) (hmem : sram.mem = some mem) (hcap : mem.length = SRAM_SIZE)
    (hc : (C &&& 0xFFFF) % 4 = 0) (hd : d % 4 = 0) (hL : L % 4 = 0)
    (hsrc : ∀ j, j < min L (SRAM_SIZE - (C &&& 0xFFFF)) → d + j < dram.length) :
    ∃ mem', (sram_dma_read e sram dram d C L).1.mem = some mem' ∧ mem'.length = SRAM_SIZE ∧
      (∀ j, j < min L (SRAM_SIZE - (C &&& 0xFFFF)) →
        mem'[(C &&& 0xFFFF) + j]? = dram[d + j]?) ∧
      (∀ x, x < (C &&& 0xFFFF) ∨ (C &&& 0xFFFF) + min L (SRAM_SIZE - (C &&& 0xFFFF)) ≤ x →
        mem'[x]? = mem[x]?) ∧
      (∀ x, (∃ p, p ∈ sram_dma_read_accesses e d (C &&& 0xFFFF) L 0 ∧ p.2 = x) ↔
        (C &&& 0xFFFF) ≤ x ∧ x < (C &&& 0xFFFF) + min L (SRAM_SIZE - (C &&& 0xFFFF))) := by
  have hS := SRAM_SIZE_eq
  have hn4 : min L (SRAM_SIZE - (C &&& 0xFFFF)) % 4 = 0 := by omega
  have key : ∀ j, j < min L (SRAM_SIZE - (C &&& 0xFFFF)) →
      j ^^^ S8 e < min L (SRAM_SIZE - (C &&& 0xFFFF)) :=
    fun j hj => lane_lt_of_aligned e j _ hn4 hj
  have hsrc' : ∀ i, i < min L (SRAM_SIZE - (C &&& SRAM_ADDR_MASK)) →
      (d + i) ^^^ S8 e < dram.length := by
    intro i hi
    rw [lane_add_of_aligned e d i hd]
    exact hsrc _ (key i hi)
  obtain ⟨mem', h1, h2, h3, h4⟩ := sram_dma_read_spec e sram mem dram d C L hmem hcap hsrc'
  have h3' : ∀ i, i < min L (SRAM_SIZE - (C &&& 0xFFFF)) →
      mem'[((C &&& 0xFFFF) + i) ^^^ S8 e]? = dram[(d + i) ^^^ S8 e]? := h3
  have h4' : ∀ x, (∀ i, i < min L (SRAM_SIZE - (C &&& 0xFFFF)) →
      x ≠ ((C &&& 0xFFFF) + i) ^^^ S8 e) → mem'[x]? = mem[x]? := h4
  refine ⟨mem', h1, h2, ?_, ?_, ?_⟩
  · intro j hj
    have := h3' (j ^^^ S8 e) (key j hj)
    rw [lane_add_of_aligned e _ _ hc, lane_add_of_aligned e d _ hd, lane_involutive] at this
    exact this
  · intro x hx
    apply h4'
    intro i hi
    rw [lane_add_of_aligned e _ _ hc]
    have := key i hi
    omega
  · intro x
    constructor
    · rintro ⟨p, hp, hpx⟩
      obtain ⟨i, hi1, hi2, hi3⟩ := (mem_sram_dma_read_accesses e d (C &&& 0xFFFF) L p).mp hp
      rw [← hpx, hi3]
      show (C &&& 0xFFFF) ≤ ((C &&& 0xFFFF) + i) ^^^ S8 e ∧ _
      rw [lane_add_of_aligned e _ _ hc]
      have := key i (by omega)
      omega
    · rintro ⟨hx1, hx2⟩
      have hj : x - (C &&& 0xFFFF) < min L (SRAM_SIZE - (C &&& 0xFFFF)) := by omega
      have hi := key _ hj
      refine ⟨((d + ((x - (C &&& 0xFFFF)) ^^^ S8 e)) ^^^ S8 e,
        ((C &&& 0xFFFF) + ((x - (C &&& 0xFFFF)) ^^^ S8 e)) ^^^ S8 e), ?_, ?_⟩
      · exact (mem_sram_dma_read_accesses e d (C &&& 0xFFFF) L _).mpr
          ⟨(x - (C &&& 0xFFFF)) ^^^ S8 e, by omega, by omega, rfl⟩
      · show ((C &&& 0xFFFF) + ((x - (C &&& 0xFFFF)) ^^^ S8 e)) ^^^ S8 e = x
        rw [lane_add_of_aligned e _ _ hc, lane_involutive]
        omega

/-- Instance of C15: the erased device, device address `0x17FFC`, main-memory
offset 4 in a main memory of 16 bytes, length 8; four bytes are copied. -/
theorem C15_aligned_dma_is_block_copy_witness :
    erased.mem = some (List.replicate SRAM_SIZE 0xff) ∧
      (List.replicate SRAM_SIZE 0xff).length = SRAM_SIZE ∧
      (0x17FFC &&& 0xFFFF) % 4 = 0 ∧ 4 % 4 = 0 ∧ 8 % 4 = 0 ∧
      (∀ j, j < min 8 (SRAM_SIZE - (0x17FFC &&& 0xFFFF)) → 4 + j < dram16.length) ∧
      ∃ mem', (sram_dma_read Endian.little erased dram16 4 0x17FFC 8).1.mem = some mem' ∧
        mem'.length = SRAM_SIZE ∧
        (∀ j, j < min 8 (SRAM_SIZE - (0x17FFC &&& 0xFFFF)) →
          mem'[(0x17FFC &&& 0xFFFF) + j]? = dram16[4 + j]?) ∧
        (∀ x, x < (0x17FFC &&& 0xFFFF) ∨
            (0x17FFC &&& 0xFFFF) + min 8 (SRAM_SIZE - (0x17FFC &&& 0xFFFF)) ≤ x →
          mem'[x]? = (List.replicate SRAM_SIZE 0xff)[x]?) ∧
        (∀ x, (∃ p, p ∈ sram_dma_read_accesses Endian.little 4 (0x17FFC &&& 0xFFFF) 8 0 ∧
            p.2 = x) ↔
          (0x17FFC &&& 0xFFFF) ≤ x ∧
            x < (0x17FFC &&& 0xFFFF) + min 8 (SRAM_SIZE - (0x17FFC &&& 0xFFFF))) :=
  have hn : min 8 (SRAM_SIZE - (0x17FFC &&& 0xFFFF)) = 4 := by decide
  have hsrc : ∀ j, j < min 8 (SRAM_SIZE - (0x17FFC &&& 0xFFFF)) → 4 + j < dram16.length := by
    intro j hj
    rw [hn] at hj
    interval_cases j <;> decide
  ⟨erased_mem, erased_length, by decide, by decide, by decide, hsrc,
    C15_aligned_dma_is_block_copy Endian.little erased _ dram16 4 0x17FFC 8 erased_mem
      erased_length (by decide) (by decide) (by decide) hsrc⟩

/-- C16. From-device DMA writes main memory in bounds when the main-memory size is
word-aligned: when `dram_size` is a multiple of 4, every main-memory index
written by `sram_dma_write` is `(d+i) XOR S8` for an `i` below the length with
`d + i` below `dram_size`, and it is strictly below `dram_size`, on either
host. -/
theorem C16_sram_dma_write_inside_dram (e : Endian) (dram_size d C L : Nat) (p : Nat × Nat)
    (h4 : dram_size % 4 = 0)
    (hp : p ∈ sram_dma_write_accesses e dram_size d (C &&& 0xFFFF) L 0) :
    (∃ i, i < L ∧ d + i < dram_size ∧ p.2 = (d + i) ^^^ S8 e) ∧ p.2 < dram_size := by
  obtain ⟨i, h1, h2, h3⟩ := (mem_sram_dma_write_accesses e dram_size d (C &&& 0xFFFF) L p).mp hp
  refine ⟨⟨i, h1, h2, by rw [h3]⟩, ?_⟩
  rw [h3]
  exact lane_lt_of_aligned e _ dram_size h4 h2

/-- Instance of C16: main-memory size 16, main-memory offset 12, device address
`0x7FFE`, length 8 on a little-endian host; the first iteration writes index 15. -/
theorem C16_sram_dma_write_inside_dram_witness :
    16 % 4 = 0 ∧
      ((0x7FFD, 15) : Nat × Nat) ∈
        sram_dma_write_accesses Endian.little 16 12 (0x7FFE &&& 0xFFFF) 8 0 ∧
      ((∃ i, i < 8 ∧ 12 + i < 16 ∧
          ((0x7FFD, 15) : Nat × Nat).2 = (12 + i) ^^^ S8 Endian.little) ∧
        ((0x7FFD, 15) : Nat × Nat).2 < 16) :=
  have hp : ((0x7FFD, 15) : Nat × Nat) ∈
      sram_dma_write_accesses Endian.little 16 12 (0x7FFE &&& 0xFFFF) 8 0 :=
    (mem_sram_dma_write_accesses Endian.little 16 12 (0x7FFE &&& 0xFFFF) 8 (0x7FFD, 15)).mpr
      ⟨0, by decide, by decide, by decide⟩
  ⟨by decide, hp,
    C16_sram_dma_write_inside_dram Endian.little 16 12 0x7FFE 8 (0x7FFD, 15) (by decide) hp⟩

end CartSram

namespace SohExport

theorem value_of_opt_ne (name n v : String) (rest : List Item) (h : n ≠ name) :
    value_of name (Item.opt n v :: rest) = value_of name rest := by
  simp [value_of, h]

theorem value_of_opt_eq (name v : String) (rest : List Item) :
    value_of name (Item.opt name v :: rest) = (value_of name rest).or (some v) := by
  simp [value_of]

theorem or_some_or (x y : Option String) (v : String) :
    (x.or (some v)).or y = x.or (some v) := by
  cases x <;> rfl

/-- The argument loop honours the command line. -/
theorem parse_args_spec (atoi : String → Int) (args : List String) :
    ∀ o : Options,
      (Item.word "--help" ∈ items args → parse_args atoi args o = Parsed.help) ∧
      (Item.word "--help" ∉ items args →
        ∃ o', parse_args atoi args o = Parsed.done o' ∧
          o'.sra_path = (value_of "--sra" (items args)).or o.sra_path ∧
          o'.rom_path = (value_of "--rom" (items args)).or o.rom_path ∧
          (o'.force = true ↔ (o.force = true ∨ Item.word "--force" ∈ items args))) := by
  induction args using items.induct with
  | case1 =>
    intro o
    simp [items, parse_args, value_of]
  | case2 a =>
    intro o
    by_cases hf : a = "--force"
    · subst hf
      simp [items, parse_args, value_of]
    · by_cases hh : a = "--help"
      · subst hh
        simp [items, parse_args, value_of]
      · simp [items, parse_args, value_of, hf, hh, Ne.symm hf, Ne.symm hh]
  | case3 a v rest ht ih =>
    intro o
    have hit : items (a :: v :: rest) = Item.opt a v :: items rest := by
      simp [items, ht]
    have hmem : ∀ w, Item.word w ∈ items (a :: v :: rest) ↔ Item.word w ∈ items rest := by
      intro w
      simp [hit]
    simp only [takes_value, Bool.or_eq_true, decide_eq_true_eq] at ht
    rcases ht with ((h | h) | h) | h
    · subst h
      have hp : parse_args atoi ("--sra" :: v :: rest) o =
          parse_args atoi rest { o with sra_path := some v } := by
        simp [parse_args]
      obtain ⟨ih1, ih2⟩ := ih { o with sra_path := some v }
      rw [hp, hmem, hmem, hit, value_of_opt_eq, value_of_opt_ne _ _ _ _ (by decide)]
      refine ⟨ih1, fun h => ?_⟩
      obtain ⟨o', h1, h2, h3, h4⟩ := ih2 h
      rw [or_some_or]
      exact ⟨o', h1, h2, h3, h4⟩
    · subst h
      have hp : parse_args atoi ("--rom" :: v :: rest) o =
          parse_args atoi rest { o with rom_path := some v } := by
        simp [parse_args]
      obtain ⟨ih1, ih2⟩ := ih { o with rom_path := some v }
      rw [hp, hmem, hmem, hit, value_of_opt_eq, value_of_opt_ne _ _ _ _ (by decide)]
      refine ⟨ih1, fun h => ?_⟩
      obtain ⟨o', h1, h2, h3, h4⟩ := ih2 h
      rw [or_some_or]
      exact ⟨o', h1, h2, h3, h4⟩
    · subst h
      have hp : parse_args atoi ("--outdir" :: v :: rest) o =
          parse_args atoi rest { o with outdir := v } := by
        simp [parse_args]
      obtain ⟨ih1, ih2⟩ := ih { o with outdir := v }
      rw [hp, hmem, hmem, hit, value_of_opt_ne _ _ _ _ (by decide),
        value_of_opt_ne _ _ _ _ (by decide)]
      exact ⟨ih1, ih2⟩
    · subst h
      have hp : parse_args atoi ("--slot" :: v :: rest) o =
          parse_args atoi rest { o with slot := atoi v } := by
        simp [parse_args]
      obtain ⟨ih1, ih2⟩ := ih { o with slot := atoi v }
      rw [hp, hmem, hmem, hit, value_of_opt_ne _ _ _ _ (by decide),
        value_of_opt_ne _ _ _ _ (by decide)]
      exact ⟨ih1, ih2⟩
  | case4 a v rest ht ih =>
    intro o
    have hit : items (a :: v :: rest) = Item.word a :: items (v :: rest) := by
      simp [items, ht]
    simp only [takes_value, Bool.or_eq_true, decide_eq_true_eq, not_or] at ht
    obtain ⟨⟨⟨hs, hr⟩, ho⟩, hl⟩ := ht
    have hv : ∀ name, value_of name (items (a :: v :: rest)) = value_of name (items (v :: rest)) := by
      intro name
      rw [hit]
      simp [value_of]
    by_cases hf : a = "--force"
    · have hp : parse_args atoi (a :: v :: rest) o =
          parse_args atoi (v :: rest) { o with force := true } := by
        simp [parse_args, hs, hr, ho, hl, hf]
      obtain ⟨ih1, ih2⟩ := ih { o with force := true }
      rw [hp, hv, hv, hit]
      subst hf
      constructor
      · intro h
        simp only [List.mem_cons, Item.word.injEq] at h
        rcases h with h | h
        · exact absurd h (by decide)
        · exact ih1 h
      · intro h
        simp only [List.mem_cons, Item.word.injEq, not_or] at h
        obtain ⟨o', h1, h2, h3, h4⟩ := ih2 h.2
        refine ⟨o', h1, h2, h3, ?_⟩
        simp [h4]
    · by_cases hh : a = "--help"
      · have hp : parse_args atoi (a :: v :: rest) o = Parsed.help := by
          simp [parse_args, hs, hr, ho, hl, hf, hh]
        rw [hp, hit]
        subst hh
        simp
      · have hp : parse_args atoi (a :: v :: rest) o = parse_args atoi (v :: rest) o := by
          simp [parse_args, hs, hr, ho, hl, hf, hh]
        obtain ⟨ih1, ih2⟩ := ih o
        rw [hp, hv, hv, hit]
        constructor
        · intro h
          simp only [List.mem_cons, Item.word.injEq] at h
          rcases h with h | h
          · exact absurd h.symm hh
          · exact ih1 h
        · intro h
          simp only [List.mem_cons, Item.word.injEq, not_or] at h
          obtain ⟨o', h1, h2, h3, h4⟩ := ih2 h.2
          refine ⟨o', h1, h2, h3, ?_⟩
          rw [h4]
          simp only [List.mem_cons, Item.word.injEq]
          constructor
          · rintro (h5 | h5)
            · exact Or.inl h5
            · exact Or.inr (Or.inr h5)
          · rintro (h5 | h5 | h5)
            · exact Or.inl h5
            · exact absurd h5.symm hf
            · exact Or.inr h5

theorem main_of_help (atoi : String → Int) (fopen : String → Option (List Nat))
    (argv : List String) (h : given "--help" argv) :
    main atoi fopen argv = { status := 0, exports := [] } := by
  have hp := (parse_args_spec atoi (argv.drop 1) Options.start).1 h
  simp only [main, hp]

/-- A save file of 16 bytes: without `--force` the tool returns 1 and exports
nothing, with `--force` on the command line it exports and returns 0. -/
theorem force_on_the_command_line :
    main (fun _ => 0) (zeros 16) argv_plain = { status := 1, exports := [] } ∧
      main (fun _ => 0) (zeros 16) argv_force =
        { status := 0, exports := [(0x20, 0x1450, "SoH", 0)] } :=
  ⟨rfl, rfl⟩

/-- C17 (as stated, fails). The argument vector
`soh_export --sra save.sra --rom rom.z64 --help` supplies values for both
`--sra` and `--rom` and does not give `--force`, yet `main` returns 0 without
exporting, whether the save file has all its `SRAM_SIZE` bytes or none. -/
theorem C17_help_returns_zero_without_export :
    supplied "--sra" argv_help = some "save.sra" ∧
      supplied "--rom" argv_help = some "rom.z64" ∧
      given "--help" argv_help ∧ ¬ given "--force" argv_help ∧
      zeros SRAM_SIZE "save.sra" = some (List.replicate SRAM_SIZE 0) ∧
      (List.replicate SRAM_SIZE 0).length = SRAM_SIZE ∧
      (main (fun _ => 0) (zeros SRAM_SIZE) argv_help).status = 0 ∧
      (main (fun _ => 0) (zeros SRAM_SIZE) argv_help).exports = [] ∧
      (main (fun _ => 0) (zeros 0) argv_help).status = 0 ∧
      (main (fun _ => 0) (zeros 0) argv_help).exports = [] :=
  ⟨by decide, by decide, (show Item.word "--help" ∈ items (argv_help.drop 1) by decide),
    (show Item.word "--force" ∉ items (argv_help.drop 1) by decide), rfl,
    List.length_replicate _ _, rfl, rfl, rfl, rfl⟩

/-- C17 (amended). The exporter rejects truncated saves unless forced: for every
argument vector that does not give `--help` and supplies values for both `--sra`
and `--rom`, and every save file that can be opened, `main` returns 1 without
exporting exactly when fewer than `SRAM_SIZE` bytes were read and `--force` was
not given; otherwise it exports, with one call of `export_slot`, and returns 0.
The save file is the one named by the value supplied for `--sra`. -/
theorem C17_rejects_truncated_unless_forced (atoi : String → Int)
    (fopen : String → Option (List Nat)) (argv : List String) (sra rom : String)
    (file : List Nat) (hhelp : ¬ given "--help" argv)
    (hsra : supplied "--sra" argv = some sra) (hrom : supplied "--rom" argv = some rom)
    (hf : fopen sra = some file) :
    (((main atoi fopen argv).status = 1 ∧ (main atoi fopen argv).exports = []) ↔
        (min file.length SRAM_SIZE < SRAM_SIZE ∧ ¬ given "--force" argv)) ∧
      (¬ (min file.length SRAM_SIZE < SRAM_SIZE ∧ ¬ given "--force" argv) →
        (main atoi fopen argv).status = 0 ∧
          ∃ outdir slot, (main atoi fopen argv).exports = [(0x20, 0x1450, outdir, slot)]) := by
  obtain ⟨o, hp, h2, h3, h4⟩ := (parse_args_spec atoi (argv.drop 1) Options.start).2 hhelp
  have hs : o.sra_path = some sra := by
    rw [h2]
    show (supplied "--sra" argv).or none = some sra
    rw [hsra]
    rfl
  have hr : o.rom_path = some rom := by
    rw [h3]
    show (supplied "--rom" argv).or none = some rom
    rw [hrom]
    rfl
  have hforce : o.force = false ↔ ¬ given "--force" argv := by
    have h5 : o.force = true ↔ given "--force" argv := by
      rw [h4]
      show (false = true ∨ given "--force" argv) ↔ given "--force" argv
      simp
    rw [← h5]
    simp
  by_cases hc : min file.length SRAM_SIZE < SRAM_SIZE ∧ o.force = false
  · have hm : main atoi fopen argv = { status := 1, exports := [] } := by
      simp only [main, hp, hs, hr, hf, hc, and_self, if_true]
    have hc' : min file.length SRAM_SIZE < SRAM_SIZE ∧ ¬ given "--force" argv :=
      ⟨hc.1, hforce.mp hc.2⟩
    rw [hm]
    exact ⟨⟨fun _ => hc', fun _ => ⟨rfl, rfl⟩⟩, fun h => absurd hc' h⟩
  · have hm : main atoi fopen argv =
        { status := 0, exports := [(0x20, 0x1450, o.outdir, o.slot)] } := by
      simp only [main, hp, hs, hr, hf, hc, if_false]
    have hc' : ¬ (min file.length SRAM_SIZE < SRAM_SIZE ∧ ¬ given "--force" argv) :=
      fun h => hc ⟨h.1, hforce.mpr h.2⟩
    rw [hm]
    refine ⟨⟨fun h => ?_, fun h => absurd h hc'⟩, fun _ => ⟨rfl, o.outdir, o.slot, rfl⟩⟩
    have h1 := h.1
    simp at h1

/-- Instance of the amended C17: `soh_export --sra save.sra --rom rom.z64 --force`
on a save file of 16 bytes; `--force` is honoured and the slot is exported. -/
theorem C17_rejects_truncated_unless_forced_witness :
    ¬ given "--help" argv_force ∧ supplied "--sra" argv_force = some "save.sra" ∧
      supplied "--rom" argv_force = some "rom.z64" ∧
      zeros 16 "save.sra" = some (List.replicate 16 0) ∧
      (((main (fun _ => 0) (zeros 16) argv_force).status = 1 ∧
          (main (fun _ => 0) (zeros 16) argv_force).exports = []) ↔
        (min (List.replicate 16 0).length SRAM_SIZE < SRAM_SIZE ∧
          ¬ given "--force" argv_force)) ∧
      (¬ (min (List.replicate 16 0).length SRAM_SIZE < SRAM_SIZE ∧
          ¬ given "--force" argv_force) →
        (main (fun _ => 0) (zeros 16) argv_force).status = 0 ∧
          ∃ outdir slot, (main (fun _ => 0) (zeros 16) argv_force).exports
            = [(0x20, 0x1450, outdir, slot)]) :=
  have hhelp : ¬ given "--help" argv_force :=
    (show Item.word "--help" ∉ items (argv_force.drop 1) by decide)
  ⟨hhelp, by decide, by decide, rfl,
    C17_rejects_truncated_unless_forced (fun _ => 0) (zeros 16) argv_force "save.sra"
      "rom.z64" (List.replicate 16 0) hhelp (by decide) (by decide) rfl⟩

end SohExport
